import Mathlib

/-!
A verification development for a WebAssembly optimizer subsystem:
a dead-store-elimination framework (`DeadStoreElimination.cpp`) with three
kind adapters (global variables, linear memory, aggregate fields), the
equivalence helper built on the local graph, and the `LocalSubtyping`
consumer of the local graph.

The development is a shallow embedding: expressions are an inductive type,
external collaborators (the effect analyzer, the fallthrough view, the local
graph's get-equivalence, the wasm type system, ReFinalize) are parameters,
and every analysis function is an executable Lean function mirroring the
C++ control flow.
-/

set_option maxHeartbeats 1000000

set_option maxRecDepth 4000

/-- Effect summary for a single expression node (children excluded), as
produced by the external effect analyzer. -/
structure EffectAnalyzer where
  calls : Bool
  throws : Bool
  trap : Bool
  readsMemory : Bool
  writesMemory : Bool
  readsHeap : Bool
  writesHeap : Bool
deriving DecidableEq, Repr

/-- The all-false effect summary. -/
def EffectAnalyzer.none : EffectAnalyzer :=
  ⟨false, false, false, false, false, false, false⟩

/-- Wasm value types, with the `unreachable` sentinel.  Reference types carry
a heap-type identifier and nullability. -/
inductive WasmType where
  | unreachable
  | noneTy
  | i32
  | i64
  | f32
  | f64
  | v128
  | ref (heap : Nat) (nullable : Bool)
deriving DecidableEq, Repr

/-- Byte size of a value type (`Type::getByteSize`); only queried on loadable
scalar types in the code paths we model. -/
def WasmType.getByteSize : WasmType → Nat
  | .i32 => 4
  | .i64 => 8
  | .f32 => 4
  | .f64 => 8
  | .v128 => 16
  | _ => 0

/-- IR expression nodes relevant to the dead-store core.  Every node carries
its static type (`Expression::type`).  `LocalGet` carries the handle used by
the local graph's equivalence relation.  `Other` stands for any other node
kind. -/
inductive Expression where
  | GlobalGet (name : Nat) (ty : WasmType)
  | GlobalSet (name : Nat) (value : Expression) (ty : WasmType)
  | Load (bytes : Nat) (offset : Nat) (isAtomic : Bool) (ptr : Expression) (ty : WasmType)
  | Store (bytes : Nat) (offset : Nat) (isAtomic : Bool) (ptr : Expression)
      (value : Expression) (ty : WasmType)
  | StructGet (index : Nat) (ref : Expression) (ty : WasmType)
  | StructSet (index : Nat) (ref : Expression) (value : Expression) (ty : WasmType)
  | Const (value : Int) (ty : WasmType)
  | LocalGet (getId : Nat) (ty : WasmType)
  | Return (ty : WasmType)
  | Drop (e : Expression) (ty : WasmType)
  | Sequence (a : Expression) (b : Expression) (ty : WasmType)
  | Other (ty : WasmType)
deriving DecidableEq, Repr

/-- The static type of an expression node. -/
def Expression.type : Expression → WasmType
  | .GlobalGet _ ty => ty
  | .GlobalSet _ _ ty => ty
  | .Load _ _ _ _ ty => ty
  | .Store _ _ _ _ _ ty => ty
  | .StructGet _ _ ty => ty
  | .StructSet _ _ _ ty => ty
  | .Const _ ty => ty
  | .LocalGet _ ty => ty
  | .Return ty => ty
  | .Drop _ ty => ty
  | .Sequence _ _ ty => ty
  | .Other ty => ty

/-- Models `curr->is<Return>()`. -/
def Expression.isReturn : Expression → Bool
  | .Return _ => true
  | _ => false

/-- Models `Builder::makeDrop`. -/
def makeDrop (e : Expression) : Expression := .Drop e .noneTy

/-- Models `Builder::makeSequence`. -/
def makeSequence (a b : Expression) : Expression := .Sequence a b b.type

/-- The external analysis services shared by the framework: the per-node
effect analyzer, `Properties::getFallthrough`, and `LocalGraph::equivalent`
on local.get handles. -/
structure DSEEnv where
  effects : Expression → EffectAnalyzer
  fallthrough : Expression → Expression
  lgEquivalent : Nat → Nat → Bool

/-- Models `DeadStoreImpl::equivalent`: peel both expressions through the
fallthrough view; succeed when both are local.gets the local graph deems
equivalent, or both are constants with equal literals; fail otherwise. -/
def DSEEnv.equivalent (env : DSEEnv) (a b : Expression) : Bool :=
  (match env.fallthrough a, env.fallthrough b with
   | .LocalGet ga _, .LocalGet gb _ => env.lgEquivalent ga gb
   | _, _ => false) ||
  (match env.fallthrough a, env.fallthrough b with
   | .Const va ta, .Const vb tb => decide (va = vb) && decide (ta = tb)
   | _, _ => false)

/-- The capability set a kind adapter provides to the framework. -/
structure Adapter where
  isStore : Expression → Bool
  isRelevant : Expression → EffectAnalyzer → Bool
  isLoadFrom : Expression → EffectAnalyzer → Expression → Bool
  tramples : Expression → EffectAnalyzer → Expression → Bool
  mayInteract : Expression → EffectAnalyzer → Expression → Bool
  replaceStoreWithDrops : Expression → Expression

/-- The global-variable adapter (`GlobalDeadStoreFinder`). -/
def GlobalDeadStoreFinder (_env : DSEEnv) : Adapter where
  isStore curr :=
    match curr with
    | .GlobalSet _ _ _ => true
    | _ => false
  isRelevant curr _ :=
    match curr with
    | .GlobalGet _ _ => true
    | _ => false
  isLoadFrom curr _ store :=
    match curr with
    | .GlobalGet lname _ =>
      match store with
      | .GlobalSet sname _ _ => decide (lname = sname)
      | _ => false
    | _ => false
  tramples curr _ store :=
    match curr with
    | .GlobalSet oname _ _ =>
      match store with
      | .GlobalSet sname _ _ => decide (oname = sname)
      | _ => false
    | _ => false
  mayInteract _ _ _ := false
  replaceStoreWithDrops store :=
    match store with
    | .GlobalSet _ value _ => makeDrop value
    | _ => store

/-- The linear-memory adapter (`MemoryDeadStoreFinder`). -/
def MemoryDeadStoreFinder (env : DSEEnv) : Adapter where
  isStore curr :=
    match curr with
    | .Store _ _ _ _ _ _ => true
    | _ => false
  isRelevant _ currEffects := currEffects.readsMemory || currEffects.writesMemory
  isLoadFrom curr _ store :=
    if curr.type = WasmType.unreachable then false
    else
      match curr with
      | .Load lbytes loffset latomic lptr lty =>
        match store with
        | .Store sbytes soffset satomic sptr _ _ =>
          if satomic && !latomic then false
          else
            decide (lbytes = sbytes) && decide (lbytes = lty.getByteSize) &&
            decide (loffset = soffset) && env.equivalent lptr sptr
        | _ => false
      | _ => false
  tramples curr _ store :=
    match curr with
    | .Store obytes ooffset oatomic optr _ _ =>
      match store with
      | .Store sbytes soffset satomic sptr _ _ =>
        if satomic && !oatomic then false
        else
          decide (obytes = sbytes) && decide (ooffset = soffset) &&
          env.equivalent optr sptr
      | _ => false
    | _ => false
  mayInteract _ currEffects _ := currEffects.readsMemory || currEffects.writesMemory
  replaceStoreWithDrops store :=
    match store with
    | .Store _ _ _ ptr value _ => makeSequence (makeDrop ptr) (makeDrop value)
    | _ => store

/-- The aggregate-field adapter (`GCDeadStoreFinder`). -/
def GCDeadStoreFinder (env : DSEEnv) : Adapter where
  isStore curr :=
    match curr with
    | .StructSet _ _ _ _ => true
    | _ => false
  isRelevant curr _ :=
    match curr with
    | .StructGet _ _ _ => true
    | _ => false
  isLoadFrom curr _ store :=
    match curr with
    | .StructGet lindex lref _ =>
      match store with
      | .StructSet sindex sref _ _ =>
        env.equivalent lref sref && decide (lref.type = sref.type) &&
        decide (lindex = sindex)
      | _ => false
    | _ => false
  tramples curr _ store :=
    match curr with
    | .StructSet oindex oref _ _ =>
      match store with
      | .StructSet sindex sref _ _ =>
        env.equivalent oref sref && decide (oref.type = sref.type) &&
        decide (oindex = sindex)
      | _ => false
    | _ => false
  mayInteract _ currEffects _ := currEffects.readsHeap || currEffects.writesHeap
  replaceStoreWithDrops store :=
    match store with
    | .StructSet _ ref value _ => makeSequence (makeDrop ref) (makeDrop value)
    | _ => store

/-- Models `DeadStoreFinder::reachesGlobalCode`. -/
def reachesGlobalCode (currEffects : EffectAnalyzer) (curr : Expression) : Bool :=
  currEffects.calls || currEffects.throws || currEffects.trap || curr.isReturn

/-- Classification of an expression processed during a per-store forward
scan: a definite load, a complete trample, a halt (global reach or unknown
interaction), or none of these. -/
inductive ScanClass where
  | load
  | trample
  | halt
  | skip
deriving DecidableEq, Repr

/-- How the scan of (the remainder of) one basic block ended. -/
inductive ScanOutcome where
  | finished
  | trampled
  | halted
deriving DecidableEq, Repr

/-- A basic block as produced by the external CFG walker after phase 1:
the ordered relevant-expression references and the successor indices. -/
structure BasicBlock (ι : Type) where
  exprs : List ι
  out : List Nat
deriving DecidableEq, Repr

/-- The CFG over expression references of identity type `ι`, with the
distinguished exit block index and the dereference function. -/
structure Cfg (ι : Type) where
  blocks : List (BasicBlock ι)
  exit : Nat
  exprOf : ι → Expression

/-- The state of one store's forward flow: the loads found so far, whether
the store is still in the optimizable-stores map, the worklist queue with
its ever-pushed (non-repeating) set, and bookkeeping traces: every processed
expression with its classification, every block scanned, and every block
whose expression list was scanned to its end. -/
structure ScanState (ι : Type) where
  loads : List ι
  optimizable : Bool
  queue : List Nat
  everPushed : List Nat
  visited : List (ι × ScanClass)
  scannedBlocks : List Nat
  scannedToEnd : List Nat
deriving DecidableEq, Repr

/-- The initial per-store state: tentatively optimizable with no loads. -/
def initScanState {ι : Type} : ScanState ι :=
  ⟨[], true, [], [], [], [], []⟩

/-- The scan step over the expressions of one block (the loop body of
`scanBlock` in `DeadStoreFinder::analyze`): loads are recorded, a trample
stops the path, a global reach or unknown interaction halts the whole flow
(clearing the worklist and unmarking the store). -/
def scanExprs {ι : Type} (env : DSEEnv) (ad : Adapter) (exprOf : ι → Expression)
    (store : Expression) : List ι → ScanState ι → ScanState ι × ScanOutcome
  | [], st => (st, .finished)
  | c :: rest, st =>
    let curr := exprOf c
    let currEffects := env.effects curr
    if ad.isLoadFrom curr currEffects store then
      scanExprs env ad exprOf store rest
        { st with loads := st.loads ++ [c], visited := st.visited ++ [(c, .load)] }
    else if ad.tramples curr currEffects store then
      ({ st with visited := st.visited ++ [(c, .trample)] }, .trampled)
    else if reachesGlobalCode currEffects curr || ad.mayInteract curr currEffects store then
      ({ st with visited := st.visited ++ [(c, .halt)],
                 optimizable := false, queue := [] }, .halted)
    else
      scanExprs env ad exprOf store rest
        { st with visited := st.visited ++ [(c, .skip)] }

/-- Push to the non-repeating deferred worklist: a block ever pushed before
is never pushed again, so each block is scanned at most once per store. -/
def pushBlock {ι : Type} (st : ScanState ι) (b : Nat) : ScanState ι :=
  if b ∈ st.everPushed then st
  else { st with queue := st.queue ++ [b], everPushed := st.everPushed ++ [b] }

/-- End-of-block handling of a block scan: a trample or halt stops the path
as-is; reaching the end enqueues every successor and, if this block is the
CFG's exit, halts (any value flowing out is reachable by global code). -/
def applyBlockEnd {ι : Type} (cfg : Cfg ι) (block : BasicBlock ι) (bIdx : Nat) :
    ScanState ι × ScanOutcome → ScanState ι
  | (st2, .trampled) => st2
  | (st2, .halted) => st2
  | (st2, .finished) =>
    let st3 := { st2 with scannedToEnd := st2.scannedToEnd ++ [bIdx] }
    let st4 := block.out.foldl pushBlock st3
    if bIdx = cfg.exit then { st4 with optimizable := false, queue := [] } else st4

/-- Scan one block from position `start`: process its expressions, then
apply the end-of-block handling. -/
def scanBlock {ι : Type} (cfg : Cfg ι) (env : DSEEnv) (ad : Adapter)
    (store : Expression) (bIdx start : Nat) (st : ScanState ι) : ScanState ι :=
  applyBlockEnd cfg (cfg.blocks.getD bIdx ⟨[], []⟩) bIdx
    (scanExprs env ad cfg.exprOf store
      ((cfg.blocks.getD bIdx ⟨[], []⟩).exprs.drop start)
      { st with scannedBlocks := st.scannedBlocks ++ [bIdx] })

/-- The worklist loop: keep popping blocks and scanning them from offset 0.
Fuel bounds the iteration count; `cfgFuel` below always suffices because the
non-repeating queue admits at most one push per successor edge. -/
def workLoop {ι : Type} (cfg : Cfg ι) (env : DSEEnv) (ad : Adapter)
    (store : Expression) : Nat → ScanState ι → ScanState ι
  | 0, st => st
  | fuel + 1, st =>
    match st.queue with
    | [] => st
    | b :: rest =>
      workLoop cfg env ad store fuel
        (scanBlock cfg env ad store b 0 { st with queue := rest })

/-- Enough fuel for any per-store worklist run on `cfg`. -/
def cfgFuel {ι : Type} (cfg : Cfg ι) : Nat :=
  (cfg.blocks.map (fun b => b.out.length)).sum + 1

/-- The full per-store analysis (`DeadStoreFinder::analyze`, inner part):
scan the store's own block starting immediately after the store, then flow
through the worklist. -/
def analyzeStoreFull {ι : Type} (cfg : Cfg ι) (env : DSEEnv) (ad : Adapter)
    (bIdx pos : Nat) (s : ι) : ScanState ι :=
  let store := cfg.exprOf s
  let st := scanBlock cfg env ad store bIdx (pos + 1) initScanState
  workLoop cfg env ad store (cfgFuel cfg) st

/-- The per-store analysis result: `some loads` when the store ends the run
in the optimizable-stores map, `none` when it was erased. -/
def analyzeStore {ι : Type} (cfg : Cfg ι) (env : DSEEnv) (ad : Adapter)
    (bIdx pos : Nat) (s : ι) : Option (List ι) :=
  let st := analyzeStoreFull cfg env ad bIdx pos s
  if st.optimizable then some st.loads else Option.none

/-- The expression reference at position `i` of block `b`. -/
def exprAt {ι : Type} (cfg : Cfg ι) (b i : Nat) : Option ι :=
  match cfg.blocks.get? b with
  | some block => block.exprs.get? i
  | Option.none => Option.none

/-- Iterate the stores of one block (suffix starting at absolute position
`pos`), collecting each store's optimizable-stores entry if it survives. -/
def analyzeBlockStores {ι : Type} (cfg : Cfg ι) (env : DSEEnv) (ad : Adapter)
    (bIdx : Nat) : List ι → Nat → List (ι × List ι)
  | [], _ => []
  | e :: rest, pos =>
    (if ad.isStore (cfg.exprOf e) then
       match analyzeStore cfg env ad bIdx pos e with
       | some loads => [(e, loads)]
       | Option.none => []
     else []) ++ analyzeBlockStores cfg env ad bIdx rest (pos + 1)

/-- Models `DeadStoreFinder::analyze`: the final optimizable-stores map, as an
association list in block/position order. -/
def analyze {ι : Type} (cfg : Cfg ι) (env : DSEEnv) (ad : Adapter) :
    List (ι × List ι) :=
  (cfg.blocks.enum.map
    (fun be => analyzeBlockStores cfg env ad be.1 be.2.exprs 0)).flatten

/-- Association-list lookup (models map lookup by identity). -/
def lookupA {ι β : Type} [DecidableEq ι] : List (ι × β) → ι → Option β
  | [], _ => Option.none
  | (k, v) :: rest, s => if k = s then some v else lookupA rest s

/-- The rewrite loop of `DeadStoreFinder::optimize`: each optimizable store
with an empty load list is replaced, through its recorded substitution
handle, by the adapter's drop-based replacement; everything else is left
alone.  Generic in the program representation `Body` and handle type
`Loc`. -/
def rewriteStores {ι Loc Body : Type} [DecidableEq ι]
    (replace : Expression → Expression) (exprOf : ι → Expression)
    (sl : List (ι × Loc)) (write : Body → Loc → Expression → Body) :
    List (ι × List ι) → Body → Body
  | [], body => body
  | (s, loads) :: rest, body =>
    rewriteStores replace exprOf sl write rest
      (if loads.isEmpty then
         match lookupA sl s with
         | some loc => write body loc (replace (exprOf s))
         | Option.none => body
       else body)

/-- The joint invariant carried through a per-store flow: a halt event
forces unoptimizability, scanning the exit block to its end forces
unoptimizability, an unoptimizable state has an empty (cleared) worklist,
and every load event satisfies the adapter's `isLoadFrom`. -/
def ScanInv {ι : Type} (cfg : Cfg ι) (env : DSEEnv) (ad : Adapter)
    (store : Expression) (st : ScanState ι) : Prop :=
  (∀ c, (c, ScanClass.halt) ∈ st.visited → st.optimizable = false) ∧
  (cfg.exit ∈ st.scannedToEnd → st.optimizable = false) ∧
  (st.optimizable = false → st.queue = []) ∧
  (∀ c, (c, ScanClass.load) ∈ st.visited →
    ad.isLoadFrom (cfg.exprOf c) (env.effects (cfg.exprOf c)) store = true)

/-- Write through a substitution handle modelled as a slot index. -/
def writeSlot (slots : List Expression) (loc : Nat) (e : Expression) : List Expression :=
  slots.set loc e

/-- A trivial environment: no effects anywhere, identity fallthrough, and a
local graph that equates a get handle only with itself. -/
def envTriv : DSEEnv where
  effects _ := EffectAnalyzer.none
  fallthrough e := e
  lgEquivalent a b := decide (a = b)

/-- An environment in which `Other` nodes are calls (everything else
effect-free). -/
def envCall : DSEEnv where
  effects e :=
    match e with
    | .Other _ => ⟨true, false, false, false, false, false, false⟩
    | _ => EffectAnalyzer.none
  fallthrough e := e
  lgEquivalent a b := decide (a = b)

/-- Straight-line CFG: block 0 holds a global store then a call, block 1 is
the (empty) exit. -/
def cfgCall : Cfg Nat where
  blocks := [⟨[0, 1], [1]⟩, ⟨[], []⟩]
  exit := 1
  exprOf n :=
    if n = 0 then .GlobalSet 0 (.Const 1 .i32) .noneTy else .Other .noneTy

/-- CFG whose (nonempty) exit block holds a trample of the store in block
0. -/
def cfgExitTrample : Cfg Nat where
  blocks := [⟨[0], [1]⟩, ⟨[1], []⟩]
  exit := 1
  exprOf n :=
    if n = 0 then .GlobalSet 0 (.Const 1 .i32) .noneTy
    else .GlobalSet 0 (.Const 3 .i32) .noneTy

/-- CFG with a self-loop: block 0 holds one global store and loops back to
itself (and to the exit), so the store's own block is re-reached. -/
def cfgSelfLoop : Cfg Nat where
  blocks := [⟨[0], [0, 1]⟩, ⟨[], []⟩]
  exit := 1
  exprOf _ := .GlobalSet 0 (.Const 1 .i32) .noneTy

/-- Concrete instance for exercising the rewrite phase: store 0 with an
empty load list, store 1 with one load. -/
def exprOfW : Nat → Expression := fun n =>
  if n = 0 then .GlobalSet 0 (.Const 1 .i32) .noneTy
  else .GlobalSet 0 (.Const 2 .i32) .noneTy

def optW : List (Nat × List Nat) := [(0, []), (1, [2])]

def slW : List (Nat × Nat) := [(0, 0), (1, 1)]

def slotsW : List Expression :=
  [.GlobalSet 0 (.Const 1 .i32) .noneTy, .GlobalSet 0 (.Const 2 .i32) .noneTy]

/-- One visit of the CFG walk: the expression reference, the current basic
block (none while walking unreachable code), and the in-place substitution
handle (`getCurrentPointer`). -/
structure VisitEvent (ι : Type) where
  exprId : ι
  inBlock : Option Nat
  loc : Nat
deriving DecidableEq, Repr

/-- Phase-1 state: the per-block relevant lists and the recorded store
substitution handles. -/
structure WalkState (ι : Type) where
  blockExprs : List (List ι)
  storeLocations : List (ι × Nat)

/-- Update the `i`-th entry of a list in place. -/
def listUpdate {α : Type} (l : List α) (i : Nat) (f : α → α) : List α :=
  match l.get? i with
  | some x => l.set i (f x)
  | Option.none => l

/-- Models `DeadStoreFinder::visitExpression`: outside a basic block do nothing;
otherwise append the expression to the block's relevant list when it
reaches global code, is adapter-relevant, or is a store, and record the
substitution handle for stores. -/
def visitExpression {ι : Type} (env : DSEEnv) (ad : Adapter) (exprOf : ι → Expression)
    (st : WalkState ι) (ev : VisitEvent ι) : WalkState ι :=
  match ev.inBlock with
  | Option.none => st
  | some b =>
    let curr := exprOf ev.exprId
    let currEffects := env.effects curr
    let store := ad.isStore curr
    if reachesGlobalCode currEffects curr || ad.isRelevant curr currEffects || store then
      { blockExprs := listUpdate st.blockExprs b (fun l => l ++ [ev.exprId]),
        storeLocations :=
          if store then st.storeLocations ++ [(ev.exprId, ev.loc)]
          else st.storeLocations }
    else st

/-- The phase-1 walk over a list of visit events. -/
def buildInfo {ι : Type} (env : DSEEnv) (ad : Adapter) (exprOf : ι → Expression)
    (numBlocks : Nat) (events : List (VisitEvent ι)) : WalkState ι :=
  events.foldl (visitExpression env ad exprOf) ⟨List.replicate numBlocks [], []⟩

/-- Walk instance with an unreachable expression (id 0, visited outside any
block) and a reachable store (id 1, in block 0). -/
def events9 : List (VisitEvent Nat) := [⟨0, Option.none, 0⟩, ⟨1, some 0, 1⟩]

def exprOf9 : Nat → Expression := fun _ => .GlobalSet 0 (.Const 2 .i32) .noneTy

def cfg9 : Cfg Nat where
  blocks := [⟨[1], []⟩]
  exit := 5
  exprOf := exprOf9

def slots9 : List Expression :=
  [.GlobalSet 0 (.Const 2 .i32) .noneTy, .GlobalSet 0 (.Const 2 .i32) .noneTy]

/-- Post-order walk of an expression tree, yielding each node with its path
(the node's substitution handle inside its root); children are visited in
evaluation order before their parent, as the CFG walker does. -/
def walkExpr : List Nat → Expression → List (List Nat × Expression)
  | p, .GlobalGet n ty => [(p, .GlobalGet n ty)]
  | p, .GlobalSet n v ty => walkExpr (p ++ [0]) v ++ [(p, .GlobalSet n v ty)]
  | p, .Load b o a ptr ty => walkExpr (p ++ [0]) ptr ++ [(p, .Load b o a ptr ty)]
  | p, .Store b o a ptr v ty =>
    walkExpr (p ++ [0]) ptr ++ walkExpr (p ++ [1]) v ++ [(p, .Store b o a ptr v ty)]
  | p, .StructGet i r ty => walkExpr (p ++ [0]) r ++ [(p, .StructGet i r ty)]
  | p, .StructSet i r v ty =>
    walkExpr (p ++ [0]) r ++ walkExpr (p ++ [1]) v ++ [(p, .StructSet i r v ty)]
  | p, .Const v ty => [(p, .Const v ty)]
  | p, .LocalGet g ty => [(p, .LocalGet g ty)]
  | p, .Return ty => [(p, .Return ty)]
  | p, .Drop e ty => walkExpr (p ++ [0]) e ++ [(p, .Drop e ty)]
  | p, .Sequence a b ty =>
    walkExpr (p ++ [0]) a ++ walkExpr (p ++ [1]) b ++ [(p, .Sequence a b ty)]
  | p, .Other ty => [(p, .Other ty)]

/-- The `i`-th child slot of a node. -/
def getChild : Expression → Nat → Option Expression
  | .GlobalSet _ v _, 0 => some v
  | .Load _ _ _ ptr _, 0 => some ptr
  | .Store _ _ _ ptr _ _, 0 => some ptr
  | .Store _ _ _ _ v _, 1 => some v
  | .StructGet _ r _, 0 => some r
  | .StructSet _ r _ _, 0 => some r
  | .StructSet _ _ v _, 1 => some v
  | .Drop e _, 0 => some e
  | .Sequence a _ _, 0 => some a
  | .Sequence _ b _, 1 => some b
  | _, _ => Option.none

/-- Replace the `i`-th child slot of a node. -/
def setChild : Expression → Nat → Expression → Expression
  | .GlobalSet n _ ty, 0, r => .GlobalSet n r ty
  | .Load b o a _ ty, 0, r => .Load b o a r ty
  | .Store b o a _ v ty, 0, r => .Store b o a r v ty
  | .Store b o a ptr _ ty, 1, r => .Store b o a ptr r ty
  | .StructGet i _ ty, 0, r => .StructGet i r ty
  | .StructSet i _ v ty, 0, r => .StructSet i r v ty
  | .StructSet i rf _ ty, 1, r => .StructSet i rf r ty
  | .Drop _ ty, 0, r => .Drop r ty
  | .Sequence _ b ty, 0, r => .Sequence r b ty
  | .Sequence a _ ty, 1, r => .Sequence a r ty
  | e, _, _ => e

/-- In-place substitution at a path inside a tree. -/
def setAtPath : Expression → List Nat → Expression → Expression
  | _, [], r => r
  | e, i :: rest, r =>
    match getChild e i with
    | some c => setChild e i (setAtPath c rest r)
    | Option.none => e

/-- Dereference a path inside a tree. -/
def getAtPath : Expression → List Nat → Option Expression
  | e, [] => some e
  | e, i :: rest =>
    match getChild e i with
    | some c => getAtPath c rest
    | Option.none => Option.none

/-- Dereference a path inside a straight-line body (head of the path is the
root statement index). -/
def bodyGet (body : List Expression) : List Nat → Option Expression
  | [] => Option.none
  | i :: rest =>
    match body.get? i with
    | some root => getAtPath root rest
    | Option.none => Option.none

/-- In-place substitution inside a straight-line body. -/
def bodySet (body : List Expression) (p : List Nat) (r : Expression) : List Expression :=
  match p with
  | [] => body
  | i :: rest =>
    match body.get? i with
    | some root => body.set i (setAtPath root rest r)
    | Option.none => body

/-- The CFG walk of a straight-line body: every node of every root, in
order. -/
def walkBody (body : List Expression) : List (List Nat × Expression) :=
  (body.enum.map (fun ie => walkExpr [ie.1] ie.2)).flatten

/-- The phase-1 relevance condition of `visitExpression`. -/
def relevantFor (env : DSEEnv) (ad : Adapter) (e : Expression) : Bool :=
  reachesGlobalCode (env.effects e) e || ad.isRelevant e (env.effects e) || ad.isStore e

/-- The two-block CFG of a straight-line body: block 0 holds the relevant
expressions, block 1 is the empty exit. -/
def phaseCFG (env : DSEEnv) (ad : Adapter) (body : List Expression) : Cfg (List Nat) where
  blocks :=
    [⟨((walkBody body).filter (fun pe => relevantFor env ad pe.2)).map Prod.fst, [1]⟩,
     ⟨[], []⟩]
  exit := 1
  exprOf p := (bodyGet body p).getD (.Other .noneTy)

/-- The store substitution handles recorded during the walk (a node's handle
is its own path). -/
def phaseStoreLocations (ad : Adapter) (body : List Expression) :
    List (List Nat × List Nat) :=
  (walkBody body).foldl
    (fun acc pe => if ad.isStore pe.2 then acc ++ [(pe.1, pe.1)] else acc) []

/-- One `DeadStoreFinder<T>(..).optimize()` run over a straight-line body:
walk, analyze, then rewrite the fully dead stores. -/
def runPhase (env : DSEEnv) (ad : Adapter) (body : List Expression) : List Expression :=
  rewriteStores ad.replaceStoreWithDrops (phaseCFG env ad body).exprOf
    (phaseStoreLocations ad body) bodySet (analyze (phaseCFG env ad body) env ad) body

/-- Models `DeadStoreElimination::isFunctionParallel`. -/
def DeadStoreElimination_isFunctionParallel : Bool := true

/-- Models `DeadStoreElimination::doWalkFunction`: run the three adapters in the
fixed order globals, memory, then aggregates when GC is supported. -/
def DeadStoreElimination_doWalkFunction (env : DSEEnv) (hasGC : Bool)
    (body : List Expression) : List Expression :=
  let b1 := runPhase env (GlobalDeadStoreFinder env) body
  let b2 := runPhase env (MemoryDeadStoreFinder env) b1
  if hasGC then runPhase env (GCDeadStoreFinder env) b2 else b2

/-- An effect model matching the real analyzer on the node kinds used here:
memory accesses touch memory and may trap; aggregate-field accesses touch
the heap and may trap (null check); global accesses and the pure nodes have
no tracked effects. -/
def envReal : DSEEnv where
  effects e :=
    match e with
    | .Load _ _ _ _ _ => ⟨false, false, true, true, false, false, false⟩
    | .Store _ _ _ _ _ _ => ⟨false, false, true, false, true, false, false⟩
    | .StructGet _ _ _ => ⟨false, false, true, false, false, true, false⟩
    | .StructSet _ _ _ _ => ⟨false, false, true, false, false, false, true⟩
    | _ => EffectAnalyzer.none
  fallthrough e := e
  lgEquivalent a b := decide (a = b)

/-- Program `global g = 1; struct.set r.f = 5; global g = 3; struct.set r.f = 6`:
the first field store is trampled by the second; its trap effect is what
blocks the first global store during the first run. -/
def bodyC8 : List Expression :=
  [.GlobalSet 0 (.Const 1 .i32) .noneTy,
   .StructSet 0 (.Const 7 (.ref 0 true)) (.Const 5 .i32) .noneTy,
   .GlobalSet 0 (.Const 3 .i32) .noneTy,
   .StructSet 0 (.Const 7 (.ref 0 true)) (.Const 6 .i32) .noneTy]

/-- An entry of `LocalGraph::getSetses` as consumed by LocalSubtyping: the
get's local index and its reaching-write set; the `Option.none` element is
the nullptr entry, which per the header means "the initial value (0 for a
var, the received value for a param)". -/
structure GetSetsesEntry where
  index : Nat
  sets : List (Option Nat)
deriving DecidableEq, Repr

/-- Insertion into a set modelled as a duplicate-free list. -/
def insertIdx (acc : List Nat) (i : Nat) : List Nat :=
  if i ∈ acc then acc else acc ++ [i]

/-- The `usesDefault` computation of `LocalSubtyping::doWalkFunction`: when
non-nullable locals are enabled, collect each var index one of whose gets
has a null (entry-sentinel) element in its reaching set. -/
def computeUsesDefault (hasGCNNLocals : Bool) (isVar : Nat → Bool)
    (getSetses : List GetSetsesEntry) : List Nat :=
  if hasGCNNLocals then
    getSetses.foldl
      (fun acc e =>
        if isVar e.index && e.sets.any (fun s => decide (s = Option.none)) then
          insertIdx acc e.index
        else acc) []
  else []

/-- A `local.set` node as seen by LocalSubtyping: its local index, the
static type of its value, whether it is a tee, and its own type
annotation. -/
structure SetNode (τ : Type) where
  index : Nat
  valueType : τ
  isTee : Bool
  ty : τ
deriving DecidableEq, Repr

/-- A `local.get` node: its local index and its type annotation. -/
structure GetNode (τ : Type) where
  index : Nat
  ty : τ
deriving DecidableEq, Repr

/-- The function-body parts LocalSubtyping reads and retypes. -/
structure LSBody (τ : Type) where
  sets : List (SetNode τ)
  gets : List (GetNode τ)
deriving DecidableEq, Repr

/-- A function as LocalSubtyping sees it: parameter types, var types, and
the body nodes. -/
structure LSFunc (τ : Type) where
  params : List τ
  vars : List τ
  body : LSBody τ
deriving DecidableEq, Repr

/-- The wasm type-system operations LocalSubtyping consults (external:
`Type::getLeastUpperBound`, `Type::isSubType`, nullability and
defaultability queries, and `Type(heapType, Nullable)`). -/
structure TypeSystem (τ : Type) where
  lub : List τ → τ
  noneTy : τ
  isSubType : τ → τ → Bool
  isNonNullable : τ → Bool
  isDefaultable : τ → Bool
  mkNullable : τ → τ

/-- Models `Function::getLocalType`. -/
def getLocalType {τ : Type} (TS : TypeSystem τ) (f : LSFunc τ) (i : Nat) : τ :=
  (f.params ++ f.vars).getD i TS.noneTy

/-- The nullability adjustment of the refinement loop: a non-nullable LUB is
made nullable when non-nullable locals are disallowed or the var uses its
default; a non-defaultable (and not non-nullable) type makes the loop skip
this index (`continue`), modelled as `Option.none`. -/
def adjustNullability {τ : Type} (TS : TypeSystem τ) (nn : Bool)
    (usesDefI : Bool) (t : τ) : Option τ :=
  if TS.isNonNullable t then
    some (if !nn || usesDefI then TS.mkNullable t else t)
  else if !TS.isDefaultable t then Option.none
  else some t

/-- Install a refined type for local `i`: write the var's declared type and
retype the local's gets and tees. -/
def installType {τ : Type} [DecidableEq τ] (f : LSFunc τ) (i varBase : Nat)
    (newType : τ) : LSFunc τ where
  params := f.params
  vars := f.vars.set (i - varBase) newType
  body :=
    { sets := f.body.sets.map (fun s =>
        if s.index = i ∧ s.isTee = true then { s with ty := newType } else s),
      gets := f.body.gets.map (fun g =>
        if g.index = i then { g with ty := newType } else g) }

/-- The body of the refinement loop at one index: gather the types assigned
to the local, skip when none; compute the LUB (the source `assert`s it is
not `Type::none`: assertion failure is `Option.none`); adjust nullability;
when the adjusted type differs from the declared type, `assert` it refines
the declared type and install it.  The returned flag is `more`, the list the
performed installs `(index, old, new)`. -/
def refineIndex {τ : Type} [DecidableEq τ] (TS : TypeSystem τ) (nn : Bool)
    (usesDef : Nat → Bool) (varBase : Nat) (f : LSFunc τ) (i : Nat) :
    Option (LSFunc τ × Bool × List (Nat × τ × τ)) :=
  let types := (f.body.sets.filter (fun s => decide (s.index = i))).map
    (fun s => s.valueType)
  if types.isEmpty then some (f, false, [])
  else
    let oldType := getLocalType TS f i
    let newType0 := TS.lub types
    if newType0 = TS.noneTy then Option.none
    else
      match adjustNullability TS nn (usesDef i) newType0 with
      | Option.none => some (f, false, [])
      | some newType =>
        if newType = oldType then some (f, false, [])
        else if TS.isSubType newType oldType then
          some (installType f i varBase newType, true, [(i, oldType, newType)])
        else Option.none

/-- One pass of the refinement loop over the var indices. -/
def refinePass {τ : Type} [DecidableEq τ] (TS : TypeSystem τ) (nn : Bool)
    (usesDef : Nat → Bool) (varBase : Nat) :
    List Nat → LSFunc τ → Option (LSFunc τ × Bool × List (Nat × τ × τ))
  | [], f => some (f, false, [])
  | i :: rest, f =>
    match refineIndex TS nn usesDef varBase f i with
    | Option.none => Option.none
    | some (f1, m1, t1) =>
      match refinePass TS nn usesDef varBase rest f1 with
      | Option.none => Option.none
      | some (f2, m2, t2) => some (f2, m1 || m2, t1 ++ t2)

/-- The var indices, `varBase ≤ i < numLocals`. -/
def lsIndices (varBase numLocals : Nat) : List Nat :=
  (List.range numLocals).filter (fun i => decide (varBase ≤ i))

/-- The do-while loop: refinalize (external, retypes body nodes only), run
a refinement pass, repeat while something changed; `fuel` bounds the
iteration count. -/
def lsLoop {τ : Type} [DecidableEq τ] (TS : TypeSystem τ) (nn : Bool)
    (usesDef : Nat → Bool) (varBase numLocals : Nat)
    (refinalize : LSBody τ → LSBody τ) :
    Nat → LSFunc τ → Option (LSFunc τ × List (Nat × τ × τ))
  | 0, f => some (f, [])
  | fuel + 1, f =>
    match refinePass TS nn usesDef varBase (lsIndices varBase numLocals)
        { f with body := refinalize f.body } with
    | Option.none => Option.none
    | some (f2, more, tr) =>
      if more then
        match lsLoop TS nn usesDef varBase numLocals refinalize fuel f2 with
        | Option.none => Option.none
        | some (f3, tr') => some (f3, tr ++ tr')
      else some (f2, tr)

/-- Models `LocalSubtyping::doWalkFunction`: a no-op without the GC feature;
otherwise compute `usesDefault` from the local graph and run the refinement
loop. -/
def localSubtyping {τ : Type} [DecidableEq τ] (TS : TypeSystem τ)
    (hasGC nn : Bool) (refinalize : LSBody τ → LSBody τ)
    (getSetses : List GetSetsesEntry) (fuel : Nat) (f : LSFunc τ) :
    Option (LSFunc τ × List (Nat × τ × τ)) :=
  if !hasGC then some (f, [])
  else
    let varBase := f.params.length
    let numLocals := f.params.length + f.vars.length
    let usesDef := fun i =>
      decide (i ∈ computeUsesDefault nn (fun j => decide (varBase ≤ j)) getSetses)
    lsLoop TS nn usesDef varBase numLocals refinalize fuel f

/-- A small concrete type system exercising the refinement loop: types are
naturals, subtyping is ≤, the LUB is the maximum, nothing is non-nullable
and everything is defaultable. -/
def tsW : TypeSystem Nat where
  lub l := l.foldl Nat.max 0
  noneTy := 99
  isSubType a b := decide (a ≤ b)
  isNonNullable _ := false
  isDefaultable _ := true
  mkNullable t := t

/-- One parameter of type 5; one var declared at type 3 whose single
assignment has the more specific type 2. -/
def fW : LSFunc Nat where
  params := [5]
  vars := [3]
  body := { sets := [⟨1, 2, false, 0⟩], gets := [⟨1, 3⟩] }

/-- State `fW` after refinement: the var's declared type and get type become 2. -/
def fW2 : LSFunc Nat where
  params := [5]
  vars := [2]
  body := { sets := [⟨1, 2, false, 0⟩], gets := [⟨1, 2⟩] }

/-- Claim C6: the equivalence helper peels both inputs through the
fallthrough view and returns true in exactly two cases: both peel to local
reads that the local graph deems equivalent, or both peel to constants whose
literal values compare equal; every other combination returns false. -/
theorem equivalent_characterization (env : DSEEnv) (a b : Expression) :
    env.equivalent a b = true ↔
      ((∃ ga tya gb tyb, env.fallthrough a = .LocalGet ga tya ∧
          env.fallthrough b = .LocalGet gb tyb ∧ env.lgEquivalent ga gb = true) ∨
       (∃ v t, env.fallthrough a = .Const v t ∧ env.fallthrough b = .Const v t)) := by
  unfold DSEEnv.equivalent
  cases ha : env.fallthrough a <;> cases hb : env.fallthrough b <;> simp

/-- Claim C3: characterization of the linear-memory adapter's
`isLoadFrom`. -/
theorem memory_isLoadFrom_characterization (env : DSEEnv) (curr : Expression)
    (eff : EffectAnalyzer) (sb so : Nat) (sa : Bool) (sp sv : Expression) (sty : WasmType) :
    (MemoryDeadStoreFinder env).isLoadFrom curr eff (.Store sb so sa sp sv sty) = true ↔
      (∃ lb lo la lp lty, curr = .Load lb lo la lp lty ∧
        (sa = true → la = true) ∧ lb = sb ∧ lb = lty.getByteSize ∧ lo = so ∧
        env.equivalent lp sp = true ∧ lty ≠ WasmType.unreachable) := by
  rcases curr with _ | _ | ⟨lb, lo, la, lp, lty⟩ | _ | _ | _ | _ | _ | _ | _ | _ | _ <;>
    simp [MemoryDeadStoreFinder, Expression.type, ite_self]
  by_cases hty : lty = WasmType.unreachable
  · simp [hty]
    intro x x1
    constructor <;> (intros; simp_all)
  · simp [hty]
    rcases sa <;> rcases la <;> simp <;> try aesop

theorem pushBlock_fields {ι : Type} (st : ScanState ι) (b : Nat) :
    (pushBlock st b).loads = st.loads ∧
    (pushBlock st b).optimizable = st.optimizable ∧
    (pushBlock st b).visited = st.visited ∧
    (pushBlock st b).scannedBlocks = st.scannedBlocks ∧
    (pushBlock st b).scannedToEnd = st.scannedToEnd := by
  unfold pushBlock; split_ifs <;> simp

theorem foldl_pushBlock_fields {ι : Type} :
    ∀ (bs : List Nat) (st : ScanState ι),
      (bs.foldl pushBlock st).loads = st.loads ∧
      (bs.foldl pushBlock st).optimizable = st.optimizable ∧
      (bs.foldl pushBlock st).visited = st.visited ∧
      (bs.foldl pushBlock st).scannedBlocks = st.scannedBlocks ∧
      (bs.foldl pushBlock st).scannedToEnd = st.scannedToEnd := by
  intro bs
  induction bs with
  | nil => intro st; simp
  | cons b rest ih =>
    intro st
    have h1 := pushBlock_fields st b
    have h2 := ih (pushBlock st b)
    simp only [List.foldl_cons]
    exact ⟨h2.1.trans h1.1, h2.2.1.trans h1.2.1, h2.2.2.1.trans h1.2.2.1,
      h2.2.2.2.1.trans h1.2.2.2.1, h2.2.2.2.2.trans h1.2.2.2.2⟩

theorem scanExprs_fields {ι : Type} (env : DSEEnv) (ad : Adapter)
    (exprOf : ι → Expression) (store : Expression) :
    ∀ (l : List ι) (st : ScanState ι),
      (scanExprs env ad exprOf store l st).1.everPushed = st.everPushed ∧
      (scanExprs env ad exprOf store l st).1.scannedBlocks = st.scannedBlocks ∧
      (scanExprs env ad exprOf store l st).1.scannedToEnd = st.scannedToEnd := by
  intro l
  induction l with
  | nil => intro st; simp [scanExprs]
  | cons c rest ih =>
    intro st
    simp only [scanExprs]
    split_ifs <;> first
      | exact ih _
      | simp

theorem scanExprs_opt_queue {ι : Type} (env : DSEEnv) (ad : Adapter)
    (exprOf : ι → Expression) (store : Expression) :
    ∀ (l : List ι) (st : ScanState ι),
      ((scanExprs env ad exprOf store l st).2 = .halted →
        (scanExprs env ad exprOf store l st).1.optimizable = false ∧
        (scanExprs env ad exprOf store l st).1.queue = []) ∧
      ((scanExprs env ad exprOf store l st).2 ≠ .halted →
        (scanExprs env ad exprOf store l st).1.optimizable = st.optimizable ∧
        (scanExprs env ad exprOf store l st).1.queue = st.queue) := by
  intro l
  induction l with
  | nil => intro st; simp [scanExprs]
  | cons c rest ih =>
    intro st
    simp only [scanExprs]
    split_ifs <;> first
      | exact ih _
      | simp

theorem scanExprs_visited_mem {ι : Type} (env : DSEEnv) (ad : Adapter)
    (exprOf : ι → Expression) (store : Expression) :
    ∀ (l : List ι) (st : ScanState ι) (c : ι) (cl : ScanClass),
      (c, cl) ∈ st.visited →
      (c, cl) ∈ (scanExprs env ad exprOf store l st).1.visited := by
  intro l
  induction l with
  | nil => intro st c cl h; simpa [scanExprs] using h
  | cons e rest ih =>
    intro st c cl h
    simp only [scanExprs]
    split_ifs <;> first
      | (apply ih; simp [h])
      | simp [h]

theorem scanExprs_visited_src {ι : Type} (env : DSEEnv) (ad : Adapter)
    (exprOf : ι → Expression) (store : Expression) :
    ∀ (l : List ι) (st : ScanState ι) (c : ι) (cl : ScanClass),
      (c, cl) ∈ (scanExprs env ad exprOf store l st).1.visited →
      (c, cl) ∈ st.visited ∨ c ∈ l := by
  intro l
  induction l with
  | nil => intro st c cl h; simp [scanExprs] at h; exact Or.inl h
  | cons e rest ih =>
    intro st c cl h
    simp only [scanExprs] at h
    split_ifs at h
    · rcases ih _ c cl h with h1 | h1
      · simp at h1
        rcases h1 with h1 | h1
        · exact Or.inl h1
        · exact Or.inr (by simp [h1.1])
      · exact Or.inr (by simp [h1])
    · simp at h
      rcases h with h | h
      · exact Or.inl h
      · exact Or.inr (by simp [h.1])
    · simp at h
      rcases h with h | h
      · exact Or.inl h
      · exact Or.inr (by simp [h.1])
    · rcases ih _ c cl h with h1 | h1
      · simp at h1
        rcases h1 with h1 | h1
        · exact Or.inl h1
        · exact Or.inr (by simp [h1.1])
      · exact Or.inr (by simp [h1])

theorem scanExprs_halt_opt {ι : Type} (env : DSEEnv) (ad : Adapter)
    (exprOf : ι → Expression) (store : Expression) :
    ∀ (l : List ι) (st : ScanState ι) (c : ι),
      (c, ScanClass.halt) ∈ (scanExprs env ad exprOf store l st).1.visited →
      (c, ScanClass.halt) ∈ st.visited ∨
        (scanExprs env ad exprOf store l st).1.optimizable = false := by
  intro l
  induction l with
  | nil => intro st c h; simp [scanExprs] at h; exact Or.inl h
  | cons e rest ih =>
    intro st c h
    simp only [scanExprs] at h ⊢
    split_ifs at h ⊢
    · rcases ih _ c h with h1 | h1
      · simp at h1
        exact Or.inl h1
      · exact Or.inr h1
    · simp at h
      exact Or.inl h
    · simp
    · rcases ih _ c h with h1 | h1
      · simp at h1
        exact Or.inl h1
      · exact Or.inr h1

theorem scanExprs_load_isLoadFrom {ι : Type} (env : DSEEnv) (ad : Adapter)
    (exprOf : ι → Expression) (store : Expression) :
    ∀ (l : List ι) (st : ScanState ι) (c : ι),
      (c, ScanClass.load) ∈ (scanExprs env ad exprOf store l st).1.visited →
      (c, ScanClass.load) ∈ st.visited ∨
        ad.isLoadFrom (exprOf c) (env.effects (exprOf c)) store = true := by
  intro l
  induction l with
  | nil => intro st c h; simp [scanExprs] at h; exact Or.inl h
  | cons e rest ih =>
    intro st c h
    simp only [scanExprs] at h
    split_ifs at h with h1 h2 h3
    · rcases ih _ c h with h4 | h4
      · simp at h4
        rcases h4 with h4 | h4
        · exact Or.inl h4
        · subst h4; exact Or.inr h1
      · exact Or.inr h4
    · simp at h
      exact Or.inl h
    · simp at h
      exact Or.inl h
    · rcases ih _ c h with h4 | h4
      · simp at h4
        exact Or.inl h4
      · exact Or.inr h4

theorem scanBlock_inv {ι : Type} (cfg : Cfg ι) (env : DSEEnv) (ad : Adapter)
    (store : Expression) (bIdx start : Nat) (st : ScanState ι)
    (hopt : st.optimizable = true)
    (hA : ∀ c, (c, ScanClass.halt) ∉ st.visited)
    (hB : cfg.exit ∉ st.scannedToEnd)
    (hD : ∀ c, (c, ScanClass.load) ∈ st.visited →
      ad.isLoadFrom (cfg.exprOf c) (env.effects (cfg.exprOf c)) store = true) :
    ScanInv cfg env ad store (scanBlock cfg env ad store bIdx start st) := by
  unfold scanBlock
  rcases hse : scanExprs env ad cfg.exprOf store
      ((cfg.blocks.getD bIdx ⟨[], []⟩).exprs.drop start)
      { st with scannedBlocks := st.scannedBlocks ++ [bIdx] } with ⟨st2, oc⟩
  have hfields := scanExprs_fields env ad cfg.exprOf store
    ((cfg.blocks.getD bIdx ⟨[], []⟩).exprs.drop start)
    { st with scannedBlocks := st.scannedBlocks ++ [bIdx] }
  have hoq := scanExprs_opt_queue env ad cfg.exprOf store
    ((cfg.blocks.getD bIdx ⟨[], []⟩).exprs.drop start)
    { st with scannedBlocks := st.scannedBlocks ++ [bIdx] }
  have hload := scanExprs_load_isLoadFrom env ad cfg.exprOf store
    ((cfg.blocks.getD bIdx ⟨[], []⟩).exprs.drop start)
    { st with scannedBlocks := st.scannedBlocks ++ [bIdx] }
  have hhalt := scanExprs_halt_opt env ad cfg.exprOf store
    ((cfg.blocks.getD bIdx ⟨[], []⟩).exprs.drop start)
    { st with scannedBlocks := st.scannedBlocks ++ [bIdx] }
  rw [hse] at hfields hoq hload hhalt
  have hend : st2.scannedToEnd = st.scannedToEnd := hfields.2.2
  cases oc with
  | halted =>
    have h1 : st2.optimizable = false := (hoq.1 rfl).1
    have h2 : st2.queue = [] := (hoq.1 rfl).2
    refine ⟨fun c _ => h1, fun _ => h1, fun _ => h2, ?_⟩
    intro c hc
    rcases hload c hc with h | h
    · exact hD c h
    · exact h
  | trampled =>
    have h1 : st2.optimizable = st.optimizable := (hoq.2 (by simp)).1
    simp only [applyBlockEnd]
    refine ⟨?_, ?_, ?_, ?_⟩
    · intro c hc
      rcases hhalt c hc with h | h
      · exact absurd h (hA c)
      · exact h
    · intro hmem
      rw [hend] at hmem
      exact absurd hmem hB
    · intro hfalse
      rw [h1, hopt] at hfalse
      exact absurd hfalse (by simp)
    · intro c hc
      rcases hload c hc with h | h
      · exact hD c h
      · exact h
  | finished =>
    have h1 : st2.optimizable = st.optimizable := (hoq.2 (by simp)).1
    simp only [applyBlockEnd]
    have hpf := foldl_pushBlock_fields (cfg.blocks.getD bIdx ⟨[], []⟩).out
      { st2 with scannedToEnd := st2.scannedToEnd ++ [bIdx] }
    have hpfopt : (List.foldl pushBlock { st2 with scannedToEnd := st2.scannedToEnd ++ [bIdx] }
        (cfg.blocks.getD bIdx ⟨[], []⟩).out).optimizable = st2.optimizable := hpf.2.1
    have hpfvis : (List.foldl pushBlock { st2 with scannedToEnd := st2.scannedToEnd ++ [bIdx] }
        (cfg.blocks.getD bIdx ⟨[], []⟩).out).visited = st2.visited := hpf.2.2.1
    have hpfend : (List.foldl pushBlock { st2 with scannedToEnd := st2.scannedToEnd ++ [bIdx] }
        (cfg.blocks.getD bIdx ⟨[], []⟩).out).scannedToEnd =
        st2.scannedToEnd ++ [bIdx] := hpf.2.2.2.2
    by_cases hexit : bIdx = cfg.exit
    · rw [if_pos hexit]
      refine ⟨fun c _ => rfl, fun _ => rfl, fun _ => rfl, ?_⟩
      intro c hc
      have hc2 : (c, ScanClass.load) ∈ st2.visited := by rw [← hpfvis]; exact hc
      rcases hload c hc2 with h | h
      · exact hD c h
      · exact h
    · rw [if_neg hexit]
      refine ⟨?_, ?_, ?_, ?_⟩
      · intro c hc
        have hc2 : (c, ScanClass.halt) ∈ st2.visited := by rw [← hpfvis]; exact hc
        rcases hhalt c hc2 with h | h
        · exact absurd h (hA c)
        · rw [hpfopt]; exact h
      · intro hmem
        have hmem2 : cfg.exit ∈ st2.scannedToEnd ++ [bIdx] := by rw [← hpfend]; exact hmem
        rw [hend] at hmem2
        simp only [List.mem_append, List.mem_singleton] at hmem2
        rcases hmem2 with hmem2 | hmem2
        · exact absurd hmem2 hB
        · exact absurd hmem2.symm hexit
      · intro hfalse
        have hfalse2 : st2.optimizable = false := by rw [← hpfopt]; exact hfalse
        rw [h1, hopt] at hfalse2
        exact absurd hfalse2 (by simp)
      · intro c hc
        have hc2 : (c, ScanClass.load) ∈ st2.visited := by rw [← hpfvis]; exact hc
        rcases hload c hc2 with h | h
        · exact hD c h
        · exact h

theorem workLoop_inv {ι : Type} (cfg : Cfg ι) (env : DSEEnv) (ad : Adapter)
    (store : Expression) :
    ∀ (fuel : Nat) (st : ScanState ι),
      ScanInv cfg env ad store st →
      ScanInv cfg env ad store (workLoop cfg env ad store fuel st) := by
  intro fuel
  induction fuel with
  | zero => intro st h; simpa [workLoop] using h
  | succ n ih =>
    intro st h
    rw [workLoop]
    rcases hq : st.queue with _ | ⟨b, rest⟩
    · exact h
    · apply ih
      have hopt : st.optimizable = true := by
        by_contra hc
        have hfalse : st.optimizable = false := by
          rcases hb : st.optimizable
          · rfl
          · exact absurd hb hc
        have := h.2.2.1 hfalse
        rw [hq] at this
        exact absurd this (by simp)
      refine scanBlock_inv cfg env ad store b 0 { st with queue := rest } hopt ?_ ?_ ?_
      · intro c hc
        have := h.1 c hc
        rw [hopt] at this
        exact absurd this (by simp)
      · intro hc
        have := h.2.1 hc
        rw [hopt] at this
        exact absurd this (by simp)
      · exact fun c hc => h.2.2.2 c hc

theorem analyzeStoreFull_inv {ι : Type} (cfg : Cfg ι) (env : DSEEnv) (ad : Adapter)
    (bIdx pos : Nat) (s : ι) :
    ScanInv cfg env ad (cfg.exprOf s) (analyzeStoreFull cfg env ad bIdx pos s) := by
  unfold analyzeStoreFull
  apply workLoop_inv
  apply scanBlock_inv <;> simp [initScanState]

theorem scanBlock_visited_src {ι : Type} (cfg : Cfg ι) (env : DSEEnv) (ad : Adapter)
    (store : Expression) (bIdx start : Nat) (st : ScanState ι) :
    ∀ c cl, (c, cl) ∈ (scanBlock cfg env ad store bIdx start st).visited →
      (c, cl) ∈ st.visited ∨ c ∈ (cfg.blocks.getD bIdx ⟨[], []⟩).exprs.drop start := by
  unfold scanBlock
  rcases hse : scanExprs env ad cfg.exprOf store
      ((cfg.blocks.getD bIdx ⟨[], []⟩).exprs.drop start)
      { st with scannedBlocks := st.scannedBlocks ++ [bIdx] } with ⟨st2, oc⟩
  have hsrc := scanExprs_visited_src env ad cfg.exprOf store
    ((cfg.blocks.getD bIdx ⟨[], []⟩).exprs.drop start)
    { st with scannedBlocks := st.scannedBlocks ++ [bIdx] }
  rw [hse] at hsrc
  intro c cl hc
  cases oc with
  | halted => exact hsrc c cl hc
  | trampled => exact hsrc c cl hc
  | finished =>
    simp only [applyBlockEnd] at hc
    have hpfvis : (List.foldl pushBlock { st2 with scannedToEnd := st2.scannedToEnd ++ [bIdx] }
        (cfg.blocks.getD bIdx ⟨[], []⟩).out).visited = st2.visited :=
      (foldl_pushBlock_fields _ _).2.2.1
    by_cases hexit : bIdx = cfg.exit
    · rw [if_pos hexit] at hc
      exact hsrc c cl (by rw [← hpfvis]; exact hc)
    · rw [if_neg hexit] at hc
      exact hsrc c cl (by rw [← hpfvis]; exact hc)

theorem nodup_get?_unique {α : Type} :
    ∀ (l : List α), l.Nodup → ∀ (i j : Nat) (a : α),
      l.get? i = some a → l.get? j = some a → i = j := by
  intro l
  induction l with
  | nil => intro _ i j a h; simp at h
  | cons x rest ih =>
    intro hnd i j a hi hj
    rw [List.nodup_cons] at hnd
    rcases i with _ | i <;> rcases j with _ | j
    · rfl
    · simp only [List.get?_cons_zero] at hi
      simp only [List.get?_cons_succ] at hj
      cases hi
      exact absurd (List.get?_mem hj) hnd.1
    · simp only [List.get?_cons_zero] at hj
      simp only [List.get?_cons_succ] at hi
      cases hj
      exact absurd (List.get?_mem hi) hnd.1
    · simp only [List.get?_cons_succ] at hi hj
      exact congrArg Nat.succ (ih hnd.2 i j a hi hj)

theorem mem_flatten_of_get? {α : Type} :
    ∀ (L : List (List α)) (b : Nat) (lb : List α) (a : α),
      L.get? b = some lb → a ∈ lb → a ∈ L.flatten := by
  intro L
  induction L with
  | nil => intro b lb a h; simp at h
  | cons x rest ih =>
    intro b lb a h hmem
    rcases b with _ | b
    · simp only [List.get?_cons_zero] at h
      cases h
      simp only [List.flatten_cons, List.mem_append]
      exact Or.inl hmem
    · simp only [List.get?_cons_succ] at h
      simp only [List.flatten_cons, List.mem_append]
      exact Or.inr (ih b lb a h hmem)

theorem flatten_nodup_unique {α : Type} :
    ∀ (L : List (List α)), L.flatten.Nodup →
      ∀ (b i b' i' : Nat) (lb lb' : List α) (a : α),
        L.get? b = some lb → lb.get? i = some a →
        L.get? b' = some lb' → lb'.get? i' = some a →
        b = b' ∧ i = i' := by
  intro L
  induction L with
  | nil => intro _ b i b' i' lb lb' a h; simp at h
  | cons x rest ih =>
    intro hnd b i b' i' lb lb' a hb hi hb' hi'
    rw [List.flatten_cons, List.nodup_append] at hnd
    rcases b with _ | b <;> rcases b' with _ | b'
    · simp only [List.get?_cons_zero] at hb hb'
      cases hb; cases hb'
      exact ⟨rfl, nodup_get?_unique x hnd.1 i i' a hi hi'⟩
    · simp only [List.get?_cons_zero] at hb
      simp only [List.get?_cons_succ] at hb'
      cases hb
      exact absurd (mem_flatten_of_get? rest b' lb' a hb' (List.get?_mem hi'))
        (hnd.2.2 (List.get?_mem hi))
    · simp only [List.get?_cons_zero] at hb'
      simp only [List.get?_cons_succ] at hb
      cases hb'
      exact absurd (mem_flatten_of_get? rest b lb a hb (List.get?_mem hi))
        (hnd.2.2 (List.get?_mem hi'))
    · simp only [List.get?_cons_succ] at hb hb'
      have := ih hnd.2.1 b i b' i' lb lb' a hb hi hb' hi'
      exact ⟨congrArg Nat.succ this.1, this.2⟩

theorem get?_set_ne {α : Type} :
    ∀ (l : List α) (i j : Nat) (a : α), i ≠ j → (l.set i a).get? j = l.get? j := by
  intro l
  induction l with
  | nil => intro i j a _; simp
  | cons x rest ih =>
    intro i j a h
    rcases i with _ | i <;> rcases j with _ | j
    · exact absurd rfl h
    · simp [List.set]
    · simp [List.set]
    · simp only [List.set, List.get?_cons_succ]
      exact ih i j a (fun hc => h (by rw [hc]))

theorem get?_set_self {α : Type} :
    ∀ (l : List α) (i : Nat) (a : α), i < l.length → (l.set i a).get? i = some a := by
  intro l
  induction l with
  | nil => intro i a h; simp at h
  | cons x rest ih =>
    intro i a h
    rcases i with _ | i
    · simp [List.set]
    · simp only [List.set, List.get?_cons_succ]
      exact ih i a (by simpa using h)

theorem rewriteStores_length {ι : Type} [DecidableEq ι]
    (replace : Expression → Expression) (exprOf : ι → Expression) (sl : List (ι × Nat)) :
    ∀ (opt : List (ι × List ι)) (slots : List Expression),
      (rewriteStores replace exprOf sl writeSlot opt slots).length = slots.length := by
  intro opt
  induction opt with
  | nil => intro slots; simp [rewriteStores]
  | cons p rest ih =>
    rcases p with ⟨s, loads⟩
    intro slots
    simp only [rewriteStores]
    rw [ih]
    split_ifs
    · rcases lookupA sl s with _ | loc <;> simp [writeSlot]
    · rfl

theorem rewriteStores_frame {ι : Type} [DecidableEq ι]
    (replace : Expression → Expression) (exprOf : ι → Expression) (sl : List (ι × Nat)) :
    ∀ (opt : List (ι × List ι)) (slots : List Expression) (loc : Nat),
      (∀ s loads, (s, loads) ∈ opt → loads = [] → lookupA sl s ≠ some loc) →
      (rewriteStores replace exprOf sl writeSlot opt slots).get? loc = slots.get? loc := by
  intro opt
  induction opt with
  | nil => intro slots loc _; simp [rewriteStores]
  | cons p rest ih =>
    rcases p with ⟨s, loads⟩
    intro slots loc h
    simp only [rewriteStores]
    have htail : ∀ s' loads', (s', loads') ∈ rest → loads' = [] → lookupA sl s' ≠ some loc :=
      fun s' loads' hm => h s' loads' (List.mem_cons_of_mem _ hm)
    by_cases he : loads.isEmpty
    · rcases hlu : lookupA sl s with _ | loc'
      · simp only [he, if_pos, hlu]
        exact ih slots loc htail
      · have hne : loc' ≠ loc := by
          intro hc
          exact h s loads (List.mem_cons_self _ _) (List.isEmpty_iff.mp he) (hc ▸ hlu)
        simp only [he, if_pos, hlu]
        rw [ih _ loc htail]
        exact get?_set_ne slots loc' loc _ hne
    · simp only [if_neg he]
      exact ih slots loc htail

theorem lookupA_mem {ι β : Type} [DecidableEq ι] :
    ∀ (l : List (ι × β)) (s : ι) (v : β), lookupA l s = some v → (s, v) ∈ l := by
  intro l
  induction l with
  | nil => intro s v h; simp [lookupA] at h
  | cons p rest ih =>
    rcases p with ⟨k, w⟩
    intro s v h
    simp only [lookupA] at h
    split_ifs at h with hk
    · cases h; subst hk; exact List.mem_cons_self _ _
    · exact List.mem_cons_of_mem _ (ih s v h)

theorem rewriteStores_hit {ι : Type} [DecidableEq ι]
    (replace : Expression → Expression) (exprOf : ι → Expression) (sl : List (ι × Nat)) :
    ∀ (opt : List (ι × List ι)) (slots : List Expression) (s : ι) (loc : Nat),
      (opt.map Prod.fst).Nodup →
      (∀ s1 s2 loc', s1 ∈ opt.map Prod.fst → s2 ∈ opt.map Prod.fst →
        lookupA sl s1 = some loc' → lookupA sl s2 = some loc' → s1 = s2) →
      (s, ([] : List ι)) ∈ opt → lookupA sl s = some loc → loc < slots.length →
      (rewriteStores replace exprOf sl writeSlot opt slots).get? loc =
        some (replace (exprOf s)) := by
  intro opt
  induction opt with
  | nil => intro slots s loc _ _ h; simp at h
  | cons p rest ih =>
    rcases p with ⟨s0, loads0⟩
    intro slots s loc hnd hinj hmem hlu hlen
    rw [List.map_cons, List.nodup_cons] at hnd
    rcases List.mem_cons.mp hmem with hhead | htail
    · -- our store is the head entry
      have hs : s0 = s := (Prod.mk.injEq _ _ _ _ ▸ hhead).1.symm
      have hl : loads0 = ([] : List ι) := (Prod.mk.injEq _ _ _ _ ▸ hhead).2.symm
      subst hs; subst hl
      simp only [rewriteStores, List.isEmpty_nil, if_pos, hlu]
      have hframe : ∀ s' loads', (s', loads') ∈ rest → loads' = [] →
          lookupA sl s' ≠ some loc := by
        intro s' loads' hm hl' hc
        have hmm : s' ∈ rest.map Prod.fst := List.mem_map_of_mem Prod.fst hm
        have hs' : s' = s0 :=
          hinj s' s0 loc (List.mem_cons_of_mem _ hmm) (List.mem_cons_self _ _) hc hlu
        rw [hs'] at hmm
        exact hnd.1 hmm
      rw [rewriteStores_frame replace exprOf sl rest _ loc hframe]
      exact get?_set_self slots loc _ hlen
    · -- our store is in the tail
      have hmmt : s ∈ rest.map Prod.fst := List.mem_map_of_mem Prod.fst htail
      have hs_ne : s ≠ s0 := by
        intro hc
        rw [hc] at hmmt
        exact hnd.1 hmmt
      have hinj' : ∀ s1 s2 loc', s1 ∈ rest.map Prod.fst → s2 ∈ rest.map Prod.fst →
          lookupA sl s1 = some loc' → lookupA sl s2 = some loc' → s1 = s2 :=
        fun s1 s2 loc' h1 h2 => hinj s1 s2 loc'
          (List.mem_cons_of_mem _ h1) (List.mem_cons_of_mem _ h2)
      simp only [rewriteStores]
      by_cases he : loads0.isEmpty
      · rcases hlu0 : lookupA sl s0 with _ | loc0
        · simp only [he, if_pos, hlu0]
          exact ih slots s loc hnd.2 hinj' htail hlu hlen
        · have hne : loc0 ≠ loc := by
            intro hc
            exact hs_ne (hinj s s0 loc
              (List.mem_cons_of_mem _ hmmt)
              (List.mem_cons_self _ _) hlu (hc ▸ hlu0))
          simp only [he, if_pos, hlu0]
          exact ih (writeSlot slots loc0 (replace (exprOf s0))) s loc hnd.2 hinj' htail hlu
            (by simpa [writeSlot] using hlen)
      · simp only [if_neg he]
        exact ih slots s loc hnd.2 hinj' htail hlu hlen

theorem mem_enum_get? {α : Type} :
    ∀ (L : List α) (n : Nat) (p : Nat × α), p ∈ L.enumFrom n →
      n ≤ p.1 ∧ L.get? (p.1 - n) = some p.2 := by
  intro L
  induction L with
  | nil => intro n p h; simp at h
  | cons x rest ih =>
    intro n p h
    simp only [List.enumFrom, List.mem_cons] at h
    rcases h with h | h
    · subst h
      simp
    · have := ih (n + 1) p h
      refine ⟨by omega, ?_⟩
      have hgt : n + 1 ≤ p.1 := this.1
      have : rest.get? (p.1 - (n + 1)) = some p.2 := this.2
      have hidx : p.1 - n = (p.1 - (n + 1)) + 1 := by omega
      rw [hidx, List.get?_cons_succ]
      exact this

theorem analyzeBlockStores_mem {ι : Type} (cfg : Cfg ι) (env : DSEEnv) (ad : Adapter)
    (bIdx : Nat) :
    ∀ (l : List ι) (pos : Nat) (s : ι) (loads : List ι),
      (s, loads) ∈ analyzeBlockStores cfg env ad bIdx l pos →
      ∃ j, l.get? j = some s ∧ ad.isStore (cfg.exprOf s) = true ∧
        analyzeStore cfg env ad bIdx (pos + j) s = some loads := by
  intro l
  induction l with
  | nil => intro pos s loads h; simp [analyzeBlockStores] at h
  | cons e rest ih =>
    intro pos s loads h
    simp only [analyzeBlockStores] at h
    rcases List.mem_append.mp h with h | h
    · split_ifs at h with hst
      · rcases han : analyzeStore cfg env ad bIdx pos e with _ | loads0
        · rw [han] at h; simp at h
        · rw [han] at h
          simp only [List.mem_singleton, Prod.mk.injEq] at h
          obtain ⟨rfl, rfl⟩ := h
          exact ⟨0, by simp, hst, by simpa using han⟩
      · simp at h
    · obtain ⟨j, hj, hst, han⟩ := ih (pos + 1) s loads h
      refine ⟨j + 1, by simpa using hj, hst, ?_⟩
      have harith : pos + (j + 1) = (pos + 1) + j := by omega
      rw [harith]
      exact han

theorem analyze_mem {ι : Type} (cfg : Cfg ι) (env : DSEEnv) (ad : Adapter)
    (s : ι) (loads : List ι) :
    (s, loads) ∈ analyze cfg env ad →
    ∃ b i, exprAt cfg b i = some s ∧ ad.isStore (cfg.exprOf s) = true ∧
      analyzeStore cfg env ad b i s = some loads := by
  intro h
  unfold analyze at h
  rw [List.mem_flatten] at h
  obtain ⟨sub, hsub, hmem⟩ := h
  rw [List.mem_map] at hsub
  obtain ⟨be, hbe, rfl⟩ := hsub
  obtain ⟨j, hj, hst, han⟩ := analyzeBlockStores_mem cfg env ad be.1 be.2.exprs 0 s loads hmem
  have henum := mem_enum_get? cfg.blocks 0 be hbe
  refine ⟨be.1, j, ?_, hst, by simpa using han⟩
  unfold exprAt
  rw [show be.1 - 0 = be.1 from by omega] at henum
  rw [henum.2]
  exact hj

theorem analyze_not_mem_of_none {ι : Type} (cfg : Cfg ι) (env : DSEEnv) (ad : Adapter)
    (b i : Nat) (s : ι)
    (hnd : (cfg.blocks.map (fun bl => bl.exprs)).flatten.Nodup)
    (hpos : exprAt cfg b i = some s)
    (hnone : analyzeStore cfg env ad b i s = Option.none) :
    s ∉ (analyze cfg env ad).map Prod.fst := by
  intro hmem
  rw [List.mem_map] at hmem
  obtain ⟨⟨s', loads⟩, hm, hfst⟩ := hmem
  simp only at hfst
  subst hfst
  obtain ⟨b', i', hpos', _, han⟩ := analyze_mem cfg env ad s' loads hm
  -- recover the block lists at b and b'
  unfold exprAt at hpos hpos'
  rcases hcb : cfg.blocks.get? b with _ | bl
  · rw [hcb] at hpos; simp at hpos
  rcases hcb' : cfg.blocks.get? b' with _ | bl'
  · rw [hcb'] at hpos'; simp at hpos'
  rw [hcb] at hpos
  rw [hcb'] at hpos'
  have hmb : (cfg.blocks.map (fun x => x.exprs)).get? b = some bl.exprs := by
    rw [List.get?_map, hcb]; rfl
  have hmb' : (cfg.blocks.map (fun x => x.exprs)).get? b' = some bl'.exprs := by
    rw [List.get?_map, hcb']; rfl
  have huni := flatten_nodup_unique (cfg.blocks.map (fun x => x.exprs)) hnd
    b i b' i' bl.exprs bl'.exprs s' hmb hpos hmb' hpos'
  rw [← huni.1, ← huni.2] at han
  rw [hnone] at han
  exact absurd han (by simp)

theorem adapter_store_not_loadFrom_self (env : DSEEnv) (ad : Adapter)
    (had : ad = GlobalDeadStoreFinder env ∨ ad = MemoryDeadStoreFinder env ∨
      ad = GCDeadStoreFinder env)
    (e : Expression) (eff : EffectAnalyzer) (hst : ad.isStore e = true) :
    ad.isLoadFrom e eff e = false := by
  rcases had with rfl | rfl | rfl <;> rcases e <;>
    simp_all [GlobalDeadStoreFinder, MemoryDeadStoreFinder, GCDeadStoreFinder, ite_self]

theorem nodup_not_mem_drop_succ {α : Type} :
    ∀ (l : List α), l.Nodup → ∀ (i : Nat) (a : α), l.get? i = some a →
      a ∉ l.drop (i + 1) := by
  intro l
  induction l with
  | nil => intro _ i a h; simp at h
  | cons x rest ih =>
    intro hnd i a h
    rw [List.nodup_cons] at hnd
    rcases i with _ | i
    · simp only [List.get?_cons_zero] at h
      cases h
      simpa using hnd.1
    · simp only [List.get?_cons_succ] at h
      simpa using ih hnd.2 i a h

/-- Claim C1: the rewrite phase replaces exactly the optimizable stores with
an empty load list, in place through the recorded substitution handle, by
the adapter's drops of the store's operand subtrees in evaluation order
(global: drop value; memory: drop pointer then value; field: drop reference
then value); every slot not belonging to such a store, in particular every
store with a non-empty load list or absent from the map, is unchanged. -/
theorem deadstore_rewrite_phase_spec {ι : Type} [DecidableEq ι]
    (replace : Expression → Expression) (exprOf : ι → Expression)
    (opt : List (ι × List ι)) (sl : List (ι × Nat)) (slots : List Expression)
    (hnd : (opt.map Prod.fst).Nodup)
    (hinj : ∀ s1 s2 loc', s1 ∈ opt.map Prod.fst → s2 ∈ opt.map Prod.fst →
      lookupA sl s1 = some loc' → lookupA sl s2 = some loc' → s1 = s2) :
    (∀ s loc, (s, ([] : List ι)) ∈ opt → lookupA sl s = some loc →
      loc < slots.length →
      (rewriteStores replace exprOf sl writeSlot opt slots).get? loc =
        some (replace (exprOf s))) ∧
    (∀ loc, (∀ s loads, (s, loads) ∈ opt → loads = [] → lookupA sl s ≠ some loc) →
      (rewriteStores replace exprOf sl writeSlot opt slots).get? loc =
        slots.get? loc) ∧
    (∀ env n v ty, (GlobalDeadStoreFinder env).replaceStoreWithDrops
        (.GlobalSet n v ty) = makeDrop v) ∧
    (∀ env bt o a p v ty, (MemoryDeadStoreFinder env).replaceStoreWithDrops
        (.Store bt o a p v ty) = makeSequence (makeDrop p) (makeDrop v)) ∧
    (∀ env idx r v ty, (GCDeadStoreFinder env).replaceStoreWithDrops
        (.StructSet idx r v ty) = makeSequence (makeDrop r) (makeDrop v)) := by
  refine ⟨?_, ?_, fun _ _ _ _ => rfl, fun _ _ _ _ _ _ _ => rfl, fun _ _ _ _ _ => rfl⟩
  · exact fun s loc hm hlu hlen =>
      rewriteStores_hit replace exprOf sl opt slots s loc hnd hinj hm hlu hlen
  · exact fun loc h => rewriteStores_frame replace exprOf sl opt slots loc h

/-- Claim C2 (amended): during the per-store forward scan for `S`, if an
expression is classified as a halt (neither a load-from nor a trample, and
reaching global code or satisfying may-interact), or if the scan reaches the
end of the exit block's expression list, then the worklist is cleared, `S`
is removed from the optimizable-stores map, `S` ends the adapter run
unoptimizable, and `S` is never rewritten.  (The original claim's trigger
"the scan reaches the exit block" is weakened to "the scan reaches the end
of the exit block": a trample inside the exit block stops the path before
the exit halt fires.) -/
theorem deadstore_halt_makes_unoptimizable {ι : Type} [DecidableEq ι]
    (cfg : Cfg ι) (env : DSEEnv) (ad : Adapter) (b i : Nat) (s : ι)
    (hpos : exprAt cfg b i = some s)
    (hnd : (cfg.blocks.map (fun bl => bl.exprs)).flatten.Nodup)
    (htrig : (∃ c, (c, ScanClass.halt) ∈ (analyzeStoreFull cfg env ad b i s).visited) ∨
      cfg.exit ∈ (analyzeStoreFull cfg env ad b i s).scannedToEnd) :
    (analyzeStoreFull cfg env ad b i s).optimizable = false ∧
    (analyzeStoreFull cfg env ad b i s).queue = [] ∧
    analyzeStore cfg env ad b i s = Option.none ∧
    s ∉ (analyze cfg env ad).map Prod.fst ∧
    (∀ (sl : List (ι × Nat)) (slots : List Expression) (loc : Nat),
      (∀ s', s' ∈ (analyze cfg env ad).map Prod.fst →
        lookupA sl s' = some loc → s' = s) →
      (rewriteStores ad.replaceStoreWithDrops cfg.exprOf sl writeSlot
        (analyze cfg env ad) slots).get? loc = slots.get? loc) := by
  have hinv := analyzeStoreFull_inv cfg env ad b i s
  have hopt : (analyzeStoreFull cfg env ad b i s).optimizable = false := by
    rcases htrig with ⟨c, hc⟩ | hc
    · exact hinv.1 c hc
    · exact hinv.2.1 hc
  have hqueue := hinv.2.2.1 hopt
  have hnone : analyzeStore cfg env ad b i s = Option.none := by
    unfold analyzeStore
    simp [hopt]
  have hnotmem := analyze_not_mem_of_none cfg env ad b i s hnd hpos hnone
  refine ⟨hopt, hqueue, hnone, hnotmem, ?_⟩
  intro sl slots loc hloc
  apply rewriteStores_frame
  intro s' loads' hm _ hc
  have hmm : s' ∈ (analyze cfg env ad).map Prod.fst := List.mem_map_of_mem Prod.fst hm
  have hss : s' = s := hloc s' hmm hc
  rw [hss] at hmm
  exact hnotmem hmm

theorem deadstore_halt_makes_unoptimizable_witness :
    (analyzeStoreFull cfgCall envCall (GlobalDeadStoreFinder envCall) 0 0 0).optimizable
        = false ∧
    analyzeStore cfgCall envCall (GlobalDeadStoreFinder envCall) 0 0 0 = Option.none ∧
    (0 : Nat) ∉ (analyze cfgCall envCall (GlobalDeadStoreFinder envCall)).map Prod.fst := by
  have h := deadstore_halt_makes_unoptimizable cfgCall envCall
    (GlobalDeadStoreFinder envCall) 0 0 0 (by decide) (by decide)
    (Or.inl ⟨1, by decide⟩)
  exact ⟨h.1, h.2.2.1, h.2.2.2.1⟩

/-- Counterexample to claim C2 as stated: in `cfgExitTrample` the per-store
scan for the store in block 0 reaches (scans) the exit block, but a trample
at the head of the exit block stops the path before the end-of-exit halt, so
the store stays in the optimizable-stores map with an empty load list. -/
theorem deadstore_exit_reach_counterexample :
    cfgExitTrample.exit ∈ (analyzeStoreFull cfgExitTrample envTriv
      (GlobalDeadStoreFinder envTriv) 0 0 0).scannedBlocks ∧
    (analyzeStoreFull cfgExitTrample envTriv
      (GlobalDeadStoreFinder envTriv) 0 0 0).optimizable = true ∧
    analyzeStore cfgExitTrample envTriv
      (GlobalDeadStoreFinder envTriv) 0 0 0 = some [] := by decide

/-- Claim C4 (amended): a store is never classified as a load-from of
itself (for each of the three adapters), and the scan of the store's own
block starts strictly after the store, so the initial block scan never
applies the predicates to the store itself.  (The original claim's further
assertion that no worklist-initiated block scan ever reaches the store
itself is false: when the store's block is re-reached through a CFG cycle it
is rescanned from offset 0 and the store can be classified as a trample of
itself.) -/
theorem store_never_loadFrom_self {ι : Type} [DecidableEq ι]
    (cfg : Cfg ι) (env : DSEEnv) (ad : Adapter) (b i : Nat) (s : ι)
    (had : ad = GlobalDeadStoreFinder env ∨ ad = MemoryDeadStoreFinder env ∨
      ad = GCDeadStoreFinder env)
    (hstore : ad.isStore (cfg.exprOf s) = true)
    (hnd : (cfg.blocks.getD b ⟨[], []⟩).exprs.Nodup)
    (hpos : (cfg.blocks.getD b ⟨[], []⟩).exprs.get? i = some s) :
    ((s, ScanClass.load) ∉ (analyzeStoreFull cfg env ad b i s).visited) ∧
    (∀ cl, (s, cl) ∉
      (scanBlock cfg env ad (cfg.exprOf s) b (i + 1) initScanState).visited) := by
  constructor
  · intro hc
    have hload := (analyzeStoreFull_inv cfg env ad b i s).2.2.2 s hc
    rw [adapter_store_not_loadFrom_self env ad had (cfg.exprOf s)
      (env.effects (cfg.exprOf s)) hstore] at hload
    exact absurd hload (by simp)
  · intro cl hc
    rcases scanBlock_visited_src cfg env ad (cfg.exprOf s) b (i + 1)
        initScanState s cl hc with h | h
    · simp [initScanState] at h
    · exact absurd h (nodup_not_mem_drop_succ _ hnd i s hpos)

theorem store_never_loadFrom_self_witness :
    ((0, ScanClass.load) ∉ (analyzeStoreFull cfgSelfLoop envTriv
      (GlobalDeadStoreFinder envTriv) 0 0 0).visited) ∧
    (∀ cl, (0, cl) ∉ (scanBlock cfgSelfLoop envTriv (GlobalDeadStoreFinder envTriv)
      (cfgSelfLoop.exprOf 0) 0 1 initScanState).visited) :=
  store_never_loadFrom_self cfgSelfLoop envTriv (GlobalDeadStoreFinder envTriv) 0 0 0
    (Or.inl rfl) (by decide) (by decide) (by decide)

/-- Counterexample to claim C4 as stated: in the self-loop CFG the store's
own block is re-reached from the worklist and rescanned from offset 0, and
the store is classified as a trample of itself. -/
theorem store_tramples_itself_counterexample :
    (0, ScanClass.trample) ∈ (analyzeStoreFull cfgSelfLoop envTriv
      (GlobalDeadStoreFinder envTriv) 0 0 0).visited := by decide

theorem deadstore_rewrite_phase_spec_witness :
    (rewriteStores ((GlobalDeadStoreFinder envTriv).replaceStoreWithDrops) exprOfW slW
      writeSlot optW slotsW).get? 0 =
        some ((GlobalDeadStoreFinder envTriv).replaceStoreWithDrops (exprOfW 0)) ∧
    (rewriteStores ((GlobalDeadStoreFinder envTriv).replaceStoreWithDrops) exprOfW slW
      writeSlot optW slotsW).get? 1 = slotsW.get? 1 := by
  have hinj : ∀ (s1 s2 loc' : Nat), s1 ∈ optW.map Prod.fst → s2 ∈ optW.map Prod.fst →
      lookupA slW s1 = some loc' → lookupA slW s2 = some loc' → s1 = s2 := by
    intro s1 s2 loc' h1 h2 e1 e2
    simp [optW] at h1 h2
    rcases h1 with rfl | rfl <;> rcases h2 with rfl | rfl
    · rfl
    · simp [lookupA, slW] at e1 e2; omega
    · simp [lookupA, slW] at e1 e2; omega
    · rfl
  have h := deadstore_rewrite_phase_spec
    ((GlobalDeadStoreFinder envTriv).replaceStoreWithDrops) exprOfW optW slW slotsW
    (by decide) hinj
  refine ⟨h.1 0 0 (by decide) (by decide) (by decide), h.2.1 1 ?_⟩
  intro s loads hm hl
  simp [optW] at hm
  rcases hm with ⟨rfl, rfl⟩ | ⟨rfl, rfl⟩
  · decide
  · exact absurd hl (by decide)

theorem mem_listUpdate_append {ι : Type} (L : List (List ι)) (b : Nat) (eid x : ι)
    (l' : List ι) (hl' : l' ∈ listUpdate L b (fun l => l ++ [eid])) (hx : x ∈ l') :
    (∃ l ∈ L, x ∈ l) ∨ x = eid := by
  unfold listUpdate at hl'
  rcases hg : L.get? b with _ | l0
  · rw [hg] at hl'; exact Or.inl ⟨l', hl', hx⟩
  · rw [hg] at hl'
    rcases List.mem_or_eq_of_mem_set hl' with h | h
    · exact Or.inl ⟨l', h, hx⟩
    · subst h
      rcases List.mem_append.mp hx with h | h
      · exact Or.inl ⟨l0, List.get?_mem hg, h⟩
      · simp at h
        exact Or.inr h

theorem visitExpression_src {ι : Type} (env : DSEEnv) (ad : Adapter)
    (exprOf : ι → Expression) (st : WalkState ι) (ev : VisitEvent ι) :
    (∀ x l', l' ∈ (visitExpression env ad exprOf st ev).blockExprs → x ∈ l' →
      (∃ l ∈ st.blockExprs, x ∈ l) ∨ (ev.inBlock ≠ Option.none ∧ x = ev.exprId)) ∧
    (∀ x loc, (x, loc) ∈ (visitExpression env ad exprOf st ev).storeLocations →
      (x, loc) ∈ st.storeLocations ∨
        (ev.inBlock ≠ Option.none ∧ x = ev.exprId ∧ loc = ev.loc)) := by
  obtain ⟨eid, ib, eloc⟩ := ev
  rcases ib with _ | b
  · constructor
    · intro x l' hl' hx
      simp only [visitExpression] at hl'
      exact Or.inl ⟨l', hl', hx⟩
    · intro x loc h
      simp only [visitExpression] at h
      exact Or.inl h
  · constructor
    · intro x l' hl' hx
      simp only [visitExpression] at hl'
      split_ifs at hl' with hcond hst
      · have h2 : l' ∈ listUpdate st.blockExprs b (fun l => l ++ [eid]) := hl'
        rcases mem_listUpdate_append st.blockExprs b eid x l' h2 hx with h | h
        · exact Or.inl h
        · exact Or.inr ⟨by simp, h⟩
      · have h2 : l' ∈ listUpdate st.blockExprs b (fun l => l ++ [eid]) := hl'
        rcases mem_listUpdate_append st.blockExprs b eid x l' h2 hx with h | h
        · exact Or.inl h
        · exact Or.inr ⟨by simp, h⟩
      · exact Or.inl ⟨l', hl', hx⟩
    · intro x loc h
      simp only [visitExpression] at h
      split_ifs at h with hcond hst
      · have h2 : (x, loc) ∈ st.storeLocations ++ [(eid, eloc)] := h
        rcases List.mem_append.mp h2 with h3 | h3
        · exact Or.inl h3
        · simp at h3
          exact Or.inr ⟨by simp, h3.1, h3.2⟩
      · exact Or.inl h
      · exact Or.inl h

theorem buildInfo_src {ι : Type} (env : DSEEnv) (ad : Adapter) (exprOf : ι → Expression) :
    ∀ (events : List (VisitEvent ι)) (st0 : WalkState ι),
      (∀ x l', l' ∈ (events.foldl (visitExpression env ad exprOf) st0).blockExprs →
        x ∈ l' →
        (∃ l ∈ st0.blockExprs, x ∈ l) ∨
          ∃ e ∈ events, e.inBlock ≠ Option.none ∧ x = e.exprId) ∧
      (∀ x loc,
        (x, loc) ∈ (events.foldl (visitExpression env ad exprOf) st0).storeLocations →
        (x, loc) ∈ st0.storeLocations ∨
          ∃ e ∈ events, e.inBlock ≠ Option.none ∧ x = e.exprId ∧ loc = e.loc) := by
  intro events
  induction events with
  | nil =>
    intro st0
    constructor
    · intro x l' h hx; exact Or.inl ⟨l', by simpa using h, hx⟩
    · intro x loc h; exact Or.inl (by simpa using h)
  | cons e rest ih =>
    intro st0
    simp only [List.foldl_cons]
    constructor
    · intro x l' h hx
      rcases (ih (visitExpression env ad exprOf st0 e)).1 x l' h hx with h1 | h1
      · obtain ⟨l, hl, hxl⟩ := h1
        rcases (visitExpression_src env ad exprOf st0 e).1 x l hl hxl with h2 | h2
        · exact Or.inl h2
        · exact Or.inr ⟨e, List.mem_cons_self _ _, h2.1, h2.2⟩
      · obtain ⟨e', he', h2⟩ := h1
        exact Or.inr ⟨e', List.mem_cons_of_mem _ he', h2⟩
    · intro x loc h
      rcases (ih (visitExpression env ad exprOf st0 e)).2 x loc h with h1 | h1
      · rcases (visitExpression_src env ad exprOf st0 e).2 x loc h1 with h2 | h2
        · exact Or.inl h2
        · exact Or.inr ⟨e, List.mem_cons_self _ _, h2⟩
      · obtain ⟨e', he', h2⟩ := h1
        exact Or.inr ⟨e', List.mem_cons_of_mem _ he', h2⟩

theorem lookupA_eq_none {ι β : Type} [DecidableEq ι] :
    ∀ (l : List (ι × β)) (s : ι), (∀ v, (s, v) ∉ l) → lookupA l s = Option.none := by
  intro l
  induction l with
  | nil => intro s _; rfl
  | cons p rest ih =>
    rcases p with ⟨k, w⟩
    intro s h
    simp only [lookupA]
    split_ifs with hk
    · subst hk
      exact absurd (List.mem_cons_self _ _) (h w)
    · exact ih s (fun v hv => h v (List.mem_cons_of_mem _ hv))

theorem exprAt_mem {ι : Type} (cfg : Cfg ι) (b i : Nat) (s : ι)
    (h : exprAt cfg b i = some s) : ∃ bl ∈ cfg.blocks, bl.exprs.get? i = some s := by
  unfold exprAt at h
  rcases hg : cfg.blocks.get? b with _ | bl
  · rw [hg] at h; simp at h
  · rw [hg] at h
    exact ⟨bl, List.get?_mem hg, h⟩

/-- Claim C9: an expression visited while no current basic block exists
(unreachable code) is never appended to any block's relevant list, never
recorded in the store-locations map, never becomes a key of the
optimizable-stores map, and its slot is never rewritten. -/
theorem unreachable_code_untouched {ι : Type} [DecidableEq ι]
    (env : DSEEnv) (ad : Adapter) (exprOf : ι → Expression) (numBlocks : Nat)
    (events : List (VisitEvent ι)) (ev : VisitEvent ι) (cfg : Cfg ι)
    (hev : ev ∈ events)
    (hnone : ev.inBlock = Option.none)
    (hids : (events.map (fun e => e.exprId)).Nodup)
    (hlocs : (events.map (fun e => e.loc)).Nodup)
    (hcfg : cfg.blocks.map (fun bl => bl.exprs) =
      (buildInfo env ad exprOf numBlocks events).blockExprs) :
    (∀ l, l ∈ (buildInfo env ad exprOf numBlocks events).blockExprs → ev.exprId ∉ l) ∧
    lookupA (buildInfo env ad exprOf numBlocks events).storeLocations ev.exprId
      = Option.none ∧
    ev.exprId ∉ (analyze cfg env ad).map Prod.fst ∧
    (∀ slots, (rewriteStores ad.replaceStoreWithDrops cfg.exprOf
        (buildInfo env ad exprOf numBlocks events).storeLocations writeSlot
        (analyze cfg env ad) slots).get? ev.loc = slots.get? ev.loc) := by
  have hsrc := buildInfo_src env ad exprOf events ⟨List.replicate numBlocks [], []⟩
  have hinj := List.inj_on_of_nodup_map hids
  have hinjloc := List.inj_on_of_nodup_map hlocs
  have hblocks : ∀ l, l ∈ (buildInfo env ad exprOf numBlocks events).blockExprs →
      ev.exprId ∉ l := by
    intro l hl hx
    rcases hsrc.1 ev.exprId l hl hx with h | h
    · obtain ⟨l0, hl0, hx0⟩ := h
      simp only at hl0
      rw [List.eq_of_mem_replicate hl0] at hx0
      simp at hx0
    · obtain ⟨e', he', hne, heq⟩ := h
      have hee : ev = e' := hinj hev he' heq
      rw [← hee] at hne
      exact hne hnone
  have hsl : ∀ loc, (ev.exprId, loc) ∉
      (buildInfo env ad exprOf numBlocks events).storeLocations := by
    intro loc h
    rcases hsrc.2 ev.exprId loc h with h | h
    · simp at h
    · obtain ⟨e', he', hne, heq, _⟩ := h
      have hee : ev = e' := hinj hev he' heq
      rw [← hee] at hne
      exact hne hnone
  have hkeys : ev.exprId ∉ (analyze cfg env ad).map Prod.fst := by
    intro hmem
    rw [List.mem_map] at hmem
    obtain ⟨⟨s', loads⟩, hm, hfst⟩ := hmem
    simp only at hfst
    subst hfst
    obtain ⟨b, i, hpos, _, _⟩ := analyze_mem cfg env ad _ loads hm
    obtain ⟨bl, hbl, hgi⟩ := exprAt_mem cfg b i _ hpos
    have hexprs : bl.exprs ∈ (buildInfo env ad exprOf numBlocks events).blockExprs := by
      rw [← hcfg]
      exact List.mem_map_of_mem (fun x => x.exprs) hbl
    exact hblocks bl.exprs hexprs (List.get?_mem hgi)
  refine ⟨hblocks, lookupA_eq_none _ _ hsl, hkeys, ?_⟩
  intro slots
  apply rewriteStores_frame
  intro s loads hm _ hc
  have hsm := lookupA_mem _ s ev.loc hc
  rcases hsrc.2 s ev.loc hsm with h | h
  · simp at h
  · obtain ⟨e', he', hne, _, hloc⟩ := h
    have hee : ev = e' := hinjloc hev he' hloc
    rw [← hee] at hne
    exact hne hnone

theorem unreachable_code_untouched_witness :
    (∀ l, l ∈ (buildInfo envTriv (GlobalDeadStoreFinder envTriv) exprOf9 1
      events9).blockExprs → (0 : Nat) ∉ l) ∧
    lookupA (buildInfo envTriv (GlobalDeadStoreFinder envTriv) exprOf9 1
      events9).storeLocations 0 = Option.none ∧
    (0 : Nat) ∉ (analyze cfg9 envTriv (GlobalDeadStoreFinder envTriv)).map Prod.fst ∧
    (rewriteStores (GlobalDeadStoreFinder envTriv).replaceStoreWithDrops cfg9.exprOf
      (buildInfo envTriv (GlobalDeadStoreFinder envTriv) exprOf9 1
        events9).storeLocations writeSlot
      (analyze cfg9 envTriv (GlobalDeadStoreFinder envTriv)) slots9).get? 0 =
      slots9.get? 0 := by
  have h := unreachable_code_untouched envTriv (GlobalDeadStoreFinder envTriv) exprOf9 1
    events9 ⟨0, Option.none, 0⟩ cfg9 (by decide) rfl (by decide) (by decide) (by decide)
  exact ⟨h.1, h.2.1, h.2.2.1, h.2.2.2 slots9⟩

/-- Claim C7: the driver pass runs the framework with the adapters in the
fixed order global-variable, linear-memory, then aggregate-field, the
aggregate run happening if and only if the module's features support GC,
and the pass reports itself function-parallel. -/
theorem driver_pass_adapter_order (env : DSEEnv) (hasGC : Bool)
    (body : List Expression) :
    DeadStoreElimination_doWalkFunction env hasGC body =
      (if hasGC then
        runPhase env (GCDeadStoreFinder env)
          (runPhase env (MemoryDeadStoreFinder env)
            (runPhase env (GlobalDeadStoreFinder env) body))
      else
        runPhase env (MemoryDeadStoreFinder env)
          (runPhase env (GlobalDeadStoreFinder env) body)) ∧
    DeadStoreElimination_isFunctionParallel = true :=
  ⟨rfl, rfl⟩

/-- Counterexample to claim C8 as stated: the driver pass is not idempotent.
On `bodyC8` the first run's aggregate phase removes the first field store
(trampled by the second); on the second run the first global store, no
longer blocked by that field store's trap effect, is trampled by the second
global store and is removed as well, so the body changes again. -/
theorem pass_not_idempotent_counterexample :
    DeadStoreElimination_doWalkFunction envReal true
        (DeadStoreElimination_doWalkFunction envReal true bodyC8) ≠
      DeadStoreElimination_doWalkFunction envReal true bodyC8 := by decide

/-- Claim C8 (amended): the driver pass is a fixed point on functions it
leaves unchanged: if a run removes no stores, a second run removes none
either.  (Unconditional idempotence fails, see the counterexample: a
later-adapter removal in the first run can unblock an earlier-adapter store
in the second run.) -/
theorem pass_fixed_point_when_unchanged (env : DSEEnv) (hasGC : Bool)
    (body : List Expression)
    (h : DeadStoreElimination_doWalkFunction env hasGC body = body) :
    DeadStoreElimination_doWalkFunction env hasGC
      (DeadStoreElimination_doWalkFunction env hasGC body) =
      DeadStoreElimination_doWalkFunction env hasGC body := by
  rw [h]
  exact h

theorem pass_fixed_point_when_unchanged_witness :
    DeadStoreElimination_doWalkFunction envTriv true
      (DeadStoreElimination_doWalkFunction envTriv true []) =
      DeadStoreElimination_doWalkFunction envTriv true [] :=
  pass_fixed_point_when_unchanged envTriv true [] (by decide)

theorem mem_insertIdx (acc : List Nat) (j i : Nat) :
    i ∈ insertIdx acc j ↔ i ∈ acc ∨ i = j := by
  unfold insertIdx
  split_ifs with h
  · constructor
    · exact Or.inl
    · rintro (hi | rfl)
      · exact hi
      · exact h
  · simp [List.mem_append]

theorem mem_usesDefault_foldl (isVar : Nat → Bool) :
    ∀ (l : List GetSetsesEntry) (acc : List Nat) (i : Nat),
      (i ∈ l.foldl
        (fun acc e =>
          if isVar e.index && e.sets.any (fun s => decide (s = Option.none)) then
            insertIdx acc e.index
          else acc) acc ↔
       i ∈ acc ∨ ∃ e ∈ l, e.index = i ∧ isVar i = true ∧ Option.none ∈ e.sets) := by
  intro l
  induction l with
  | nil => intro acc i; simp
  | cons e rest ih =>
    intro acc i
    simp only [List.foldl_cons]
    rw [ih]
    constructor
    · rintro (h | h)
      · split_ifs at h with hc
        · rcases (mem_insertIdx acc e.index i).mp h with h | h
          · exact Or.inl h
          · simp only [Bool.and_eq_true, List.any_eq_true] at hc
            refine Or.inr ⟨e, List.mem_cons_self _ _, h.symm, h ▸ hc.1, ?_⟩
            obtain ⟨s, hs, hsn⟩ := hc.2
            simp at hsn
            rw [← hsn]
            exact hs
        · exact Or.inl h
      · obtain ⟨e', he', h2⟩ := h
        exact Or.inr ⟨e', List.mem_cons_of_mem _ he', h2⟩
    · rintro (h | h)
      · left
        split_ifs with hc
        · exact (mem_insertIdx acc e.index i).mpr (Or.inl h)
        · exact h
      · obtain ⟨e', he', hidx, hvar, hnull⟩ := h
        rcases List.mem_cons.mp he' with rfl | he'
        · left
          have hc : (isVar e'.index &&
              e'.sets.any (fun s => decide (s = Option.none))) = true := by
            simp only [Bool.and_eq_true, List.any_eq_true]
            exact ⟨hidx ▸ hvar, Option.none, hnull, by simp⟩
          rw [if_pos hc]
          exact (mem_insertIdx acc e'.index i).mpr (Or.inr hidx.symm)
        · right
          exact ⟨e', he', hidx, hvar, hnull⟩

/-- Claim C5 (amended): the entry-value sentinel in `getSetses` is the null
reference inside a reaching set (`nullptr` per the local-graph header), and
the consumer does branch on it: with non-nullable locals enabled,
`usesDefault` contains an index exactly when some get of that var index has
the null element in its reaching set. -/
theorem usesDefault_null_sentinel_characterization (hasGCNNLocals : Bool)
    (isVar : Nat → Bool) (getSetses : List GetSetsesEntry) (i : Nat) :
    i ∈ computeUsesDefault hasGCNNLocals isVar getSetses ↔
      (hasGCNNLocals = true ∧ ∃ e ∈ getSetses, e.index = i ∧ isVar i = true ∧
        Option.none ∈ e.sets) := by
  unfold computeUsesDefault
  rcases hasGCNNLocals with _ | _
  · simp
  · simp only [Bool.not_true, if_pos]
    rw [mem_usesDefault_foldl isVar getSetses [] i]
    simp

/-- Counterexample to claim C5 as stated: reaching sets do contain null
elements, and the consumer's `usesDefault` output changes depending on
whether the null element is present — the consumer branches on null to
detect the entry case. -/
theorem null_sentinel_counterexample :
    Option.none ∈ ([Option.none] : List (Option Nat)) ∧
    computeUsesDefault true (fun _ => true) [⟨0, [Option.none]⟩] = [0] ∧
    computeUsesDefault true (fun _ => true) [⟨0, []⟩] = [] := by decide

theorem refineIndex_spec {τ : Type} [DecidableEq τ] (TS : TypeSystem τ) (nn : Bool)
    (usesDef : Nat → Bool) (varBase : Nat) (f : LSFunc τ) (i : Nat)
    (f1 : LSFunc τ) (m : Bool) (tr : List (Nat × τ × τ))
    (h : refineIndex TS nn usesDef varBase f i = some (f1, m, tr)) :
    f1.params = f.params ∧ f1.vars.length = f.vars.length ∧
    ∀ t ∈ tr, t.1 = i ∧ TS.isSubType t.2.2 t.2.1 = true := by
  simp only [refineIndex] at h
  split_ifs at h with h1 h2
  · simp only [Option.some.injEq, Prod.mk.injEq] at h
    obtain ⟨rfl, rfl, rfl⟩ := h
    exact ⟨rfl, rfl, by simp⟩
  · rcases hadj : adjustNullability TS nn (usesDef i)
        (TS.lub ((f.body.sets.filter (fun s => decide (s.index = i))).map
          (fun s => s.valueType))) with _ | newType
    · rw [hadj] at h
      simp only [] at h
      simp only [Option.some.injEq, Prod.mk.injEq] at h
      obtain ⟨rfl, rfl, rfl⟩ := h
      exact ⟨rfl, rfl, by simp⟩
    · rw [hadj] at h
      simp only [] at h
      split_ifs at h with h3 h4
      · simp only [Option.some.injEq, Prod.mk.injEq] at h
        obtain ⟨rfl, rfl, rfl⟩ := h
        exact ⟨rfl, rfl, by simp⟩
      · simp only [Option.some.injEq, Prod.mk.injEq] at h
        obtain ⟨rfl, rfl, rfl⟩ := h
        refine ⟨rfl, by simp [installType], ?_⟩
        intro t ht
        simp only [List.mem_singleton] at ht
        subst ht
        exact ⟨rfl, h4⟩

theorem refinePass_spec {τ : Type} [DecidableEq τ] (TS : TypeSystem τ) (nn : Bool)
    (usesDef : Nat → Bool) (varBase : Nat) :
    ∀ (l : List Nat) (f f2 : LSFunc τ) (m : Bool) (tr : List (Nat × τ × τ)),
      refinePass TS nn usesDef varBase l f = some (f2, m, tr) →
      f2.params = f.params ∧ f2.vars.length = f.vars.length ∧
      ∀ t ∈ tr, t.1 ∈ l ∧ TS.isSubType t.2.2 t.2.1 = true := by
  intro l
  induction l with
  | nil =>
    intro f f2 m tr h
    simp only [refinePass, Option.some.injEq, Prod.mk.injEq] at h
    obtain ⟨rfl, rfl, rfl⟩ := h
    exact ⟨rfl, rfl, by simp⟩
  | cons i rest ih =>
    intro f f2 m tr h
    simp only [refinePass] at h
    rcases h1 : refineIndex TS nn usesDef varBase f i with _ | ⟨f1, m1, t1⟩
    · rw [h1] at h; simp only [] at h; exact absurd h (by simp)
    · rw [h1] at h
      simp only [] at h
      rcases h2 : refinePass TS nn usesDef varBase rest f1 with _ | ⟨f3, m2, t2⟩
      · rw [h2] at h; simp only [] at h; exact absurd h (by simp)
      · rw [h2] at h
        simp only [] at h
        simp only [Option.some.injEq, Prod.mk.injEq] at h
        obtain ⟨rfl, rfl, rfl⟩ := h
        have s1 := refineIndex_spec TS nn usesDef varBase f i f1 m1 t1 h1
        have s2 := ih f1 f3 m2 t2 h2
        refine ⟨s2.1.trans s1.1, s2.2.1.trans s1.2.1, ?_⟩
        intro t ht
        rcases List.mem_append.mp ht with ht | ht
        · refine ⟨?_, (s1.2.2 t ht).2⟩
          rw [(s1.2.2 t ht).1]
          exact List.mem_cons_self _ _
        · exact ⟨List.mem_cons_of_mem _ (s2.2.2 t ht).1, (s2.2.2 t ht).2⟩

theorem lsLoop_spec {τ : Type} [DecidableEq τ] (TS : TypeSystem τ) (nn : Bool)
    (usesDef : Nat → Bool) (varBase numLocals : Nat)
    (refinalize : LSBody τ → LSBody τ) :
    ∀ (fuel : Nat) (f f3 : LSFunc τ) (tr : List (Nat × τ × τ)),
      lsLoop TS nn usesDef varBase numLocals refinalize fuel f = some (f3, tr) →
      f3.params = f.params ∧ f3.vars.length = f.vars.length ∧
      ∀ t ∈ tr, varBase ≤ t.1 ∧ t.1 < numLocals ∧
        TS.isSubType t.2.2 t.2.1 = true := by
  intro fuel
  induction fuel with
  | zero =>
    intro f f3 tr h
    simp only [lsLoop, Option.some.injEq, Prod.mk.injEq] at h
    obtain ⟨rfl, rfl⟩ := h
    exact ⟨rfl, rfl, by simp⟩
  | succ n ih =>
    intro f f3 tr h
    simp only [lsLoop] at h
    rcases h1 : refinePass TS nn usesDef varBase (lsIndices varBase numLocals)
        { f with body := refinalize f.body } with _ | ⟨f2, more, tr1⟩
    · rw [h1] at h; simp only [] at h; exact absurd h (by simp)
    · rw [h1] at h
      simp only [] at h
      have s1 := refinePass_spec TS nn usesDef varBase (lsIndices varBase numLocals)
        _ f2 more tr1 h1
      have hidx : ∀ t ∈ tr1, varBase ≤ t.1 ∧ t.1 < numLocals ∧
          TS.isSubType t.2.2 t.2.1 = true := by
        intro t ht
        have hmem := (s1.2.2 t ht).1
        simp only [lsIndices, List.mem_filter, List.mem_range,
          decide_eq_true_eq] at hmem
        exact ⟨hmem.2, hmem.1, (s1.2.2 t ht).2⟩
      split_ifs at h with hmore
      · rcases h2 : lsLoop TS nn usesDef varBase numLocals refinalize n f2
            with _ | ⟨f4, tr2⟩
        · rw [h2] at h; exact absurd h (by simp)
        · rw [h2] at h
          simp only [Option.some.injEq, Prod.mk.injEq] at h
          obtain ⟨rfl, rfl⟩ := h
          have s2 := ih f2 f4 tr2 h2
          refine ⟨?_, ?_, ?_⟩
          · rw [s2.1, s1.1]
          · rw [s2.2.1, s1.2.1]
          · intro t ht
            rcases List.mem_append.mp ht with ht | ht
            · exact hidx t ht
            · exact s2.2.2 t ht
      · simp only [Option.some.injEq, Prod.mk.injEq] at h
        obtain ⟨rfl, rfl⟩ := h
        exact ⟨s1.1, s1.2.1, hidx⟩

/-- Claim C10: LocalSubtyping modifies nothing when the feature set lacks
GC; when it runs, it only rewrites the declared types of var locals
(installed indices are at or above `varBase` and below `numLocals`, and the
parameter types are preserved), every installed type refines (is a
subtype-or-equal of) the local's previous declared type, and each install
retypes that local's gets and tees to the new type. -/
theorem localSubtyping_refinement_properties {τ : Type} [DecidableEq τ]
    (TS : TypeSystem τ) (nn : Bool) (refinalize : LSBody τ → LSBody τ)
    (getSetses : List GetSetsesEntry) (fuel : Nat) (f f' : LSFunc τ)
    (tr : List (Nat × τ × τ)) :
    (localSubtyping TS false nn refinalize getSetses fuel f = some (f, [])) ∧
    (localSubtyping TS true nn refinalize getSetses fuel f = some (f', tr) →
      f'.params = f.params ∧ f'.vars.length = f.vars.length ∧
      ∀ t ∈ tr, f.params.length ≤ t.1 ∧ t.1 < f.params.length + f.vars.length ∧
        TS.isSubType t.2.2 t.2.1 = true) ∧
    (∀ (usesDef : Nat → Bool) (varBase i : Nat) (g f1 : LSFunc τ)
        (m : Bool) (o n : τ),
      refineIndex TS nn usesDef varBase g i = some (f1, m, [(i, o, n)]) →
      o = getLocalType TS g i ∧ TS.isSubType n o = true ∧
      (∀ gn ∈ f1.body.gets, gn.index = i → gn.ty = n) ∧
      (∀ sn ∈ f1.body.sets, sn.index = i → sn.isTee = true → sn.ty = n)) := by
  refine ⟨rfl, ?_, ?_⟩
  · intro h
    simp only [localSubtyping, Bool.not_true] at h
    exact lsLoop_spec TS nn _ f.params.length (f.params.length + f.vars.length)
      refinalize fuel f f' tr h
  · intro usesDef varBase i g f1 m o n h
    simp only [refineIndex] at h
    split_ifs at h with h1 h2
    · simp only [Option.some.injEq, Prod.mk.injEq] at h
      exact absurd h.2.2 (by simp)
    · rcases hadj : adjustNullability TS nn (usesDef i)
          (TS.lub ((g.body.sets.filter (fun s => decide (s.index = i))).map
            (fun s => s.valueType))) with _ | newType
      · rw [hadj] at h
        simp only [] at h
        simp only [Option.some.injEq, Prod.mk.injEq] at h
        exact absurd h.2.2 (by simp)
      · rw [hadj] at h
        simp only [] at h
        split_ifs at h with h3 h4
        · simp only [Option.some.injEq, Prod.mk.injEq] at h
          exact absurd h.2.2 (by simp)
        · simp only [Option.some.injEq, Prod.mk.injEq] at h
          obtain ⟨hf1, _, htr⟩ := h
          simp only [List.cons.injEq, Prod.mk.injEq] at htr
          obtain ⟨⟨_, ho, hn⟩, _⟩ := htr
          subst ho
          subst hn
          refine ⟨rfl, h4, ?_, ?_⟩
          · intro gn hgn hgi
            rw [← hf1] at hgn
            simp only [installType, List.mem_map] at hgn
            obtain ⟨g0, hg0, rfl⟩ := hgn
            split_ifs with hg
            · rfl
            · rw [if_neg hg] at hgi
              exact absurd hgi hg
          · intro sn hsn hsi htee
            rw [← hf1] at hsn
            simp only [installType, List.mem_map] at hsn
            obtain ⟨s0, hs0, rfl⟩ := hsn
            split_ifs with hs
            · rfl
            · rw [if_neg hs] at hsi htee
              exact absurd ⟨hsi, htee⟩ hs

theorem localSubtyping_refinement_properties_witness :
    localSubtyping tsW true false id [] 3 fW = some (fW2, [(1, 3, 2)]) ∧
    fW2.params = fW.params ∧
    tsW.isSubType 2 3 = true := by
  have hrun : localSubtyping tsW true false id [] 3 fW = some (fW2, [(1, 3, 2)]) := by
    decide
  have h := (localSubtyping_refinement_properties tsW false id [] 3 fW fW2
    [(1, 3, 2)]).2.1 hrun
  exact ⟨hrun, h.1, (h.2.2 (1, 3, 2) (by decide)).2.2⟩
